import Mathlib

/-!
Shallow embedding of the SpendWise ledger and settlement engine.

Monetary amounts are JavaScript numbers in the source; they are modeled here as
exact rationals, so every arithmetic identity below is about the ideal
real-number semantics of the code.  Identifiers are Strings.  Calendar dates
(ISO date strings and js Date values compared at day granularity) are modeled
as integer day numbers since 1970-01-01, with an explicit civil-calendar
conversion used for month arithmetic.

Sources embedded:
- the split engine, balance calculator and settlement optimizer of the group
  expense service (splitExpenseEqually, splitExpenseByPercentage,
  splitExpenseByAmount, calculateGroupBalances, getSettlementSuggestions);
- the recurrence planner (generateRecurringExpenses, getNextDate) of
  recurring.service.ts;
- the personal expense store (createExpense, updateExpense, deleteExpense) of
  expense.service.ts together with the undo flows of undo.service.ts;
- the encryption key lifecycle of the crypto service (initEncryptionKey,
  encrypt, decrypt, lockEncryptionKey).
-/

namespace SpendWise

abbrev MemberId := String

/-- One row of the expense-splits table: member, owed amount, and the optional
informational percentage column. -/
structure StoredSplit where
  memberId : MemberId
  amount : ℚ
  percentage : Option ℚ
deriving DecidableEq, Repr

/-- splitExpenseEqually: each member receives totalAmount / N where N is the
number of members; there is no minor-unit quotient/remainder distribution in
the source, just one shared division. -/
def splitExpenseEqually (memberIds : List MemberId) (totalAmount : ℚ) :
    List StoredSplit :=
  let amountPerMember := totalAmount / (memberIds.length : ℚ)
  memberIds.map (fun m => ⟨m, amountPerMember, none⟩)

/-- splitExpenseByPercentage: for every entry, insert a split of amount
totalAmount * percentage / 100.  The source performs no validation of the
percentage sum and has no failure path. -/
def splitExpenseByPercentage (splits : List (MemberId × ℚ)) (totalAmount : ℚ) :
    List StoredSplit :=
  splits.map (fun s => ⟨s.1, totalAmount * s.2 / 100, some s.2⟩)

/-- splitExpenseByAmount: insert the caller-supplied amounts as splits.  The
source does not even receive the expense total, so no sum check is possible. -/
def splitExpenseByAmount (splits : List (MemberId × ℚ)) : List StoredSplit :=
  splits.map (fun s => ⟨s.1, s.2, none⟩)

/-- All three split operations first delete the existing splits of the expense
and then insert the new rows: the resulting splits table for the expense is
the new list, whatever was stored before. -/
def splitsTableAfterEqual (_old : List StoredSplit) (memberIds : List MemberId)
    (totalAmount : ℚ) : List StoredSplit :=
  splitExpenseEqually memberIds totalAmount

/-- Replacement semantics of splitExpenseByPercentage on the splits table. -/
def splitsTableAfterPercentage (_old : List StoredSplit)
    (splits : List (MemberId × ℚ)) (totalAmount : ℚ) : List StoredSplit :=
  splitExpenseByPercentage splits totalAmount

/-- Replacement semantics of splitExpenseByAmount on the splits table. -/
def splitsTableAfterAmount (_old : List StoredSplit)
    (splits : List (MemberId × ℚ)) : List StoredSplit :=
  splitExpenseByAmount splits

/-! ## Balance calculator

A JavaScript Record<string, number> is modeled as an association list in key
insertion order; reading an absent key yields none, and writing an absent key
appends it, exactly like property assignment on a plain object. -/

abbrev Balances := List (MemberId × ℚ)

/-- Read balances[m]; none models an absent key (undefined). -/
def getBal (b : Balances) (m : MemberId) : Option ℚ :=
  (b.find? (fun kv => kv.1 = m)).map (·.2)

/-- Write balances[m] = v: update in place, or append a new key. -/
def setBal (m : MemberId) (v : ℚ) : Balances → Balances
  | [] => [(m, v)]
  | kv :: rest => if kv.1 = m then (m, v) :: rest else kv :: setBal m v rest

/-- balances[m] = (balances[m] or 0) + d, the read-modify-write pattern used
throughout calculateGroupBalances. -/
def addBal (m : MemberId) (d : ℚ) (b : Balances) : Balances :=
  setBal m ((getBal b m).getD 0 + d) b

/-- One group expense as consumed by the balance calculator. -/
structure GroupExpense where
  paidByMemberId : Option MemberId
  amount : ℚ
deriving DecidableEq, Repr

/-- One settle-up payment row. -/
structure PaymentRow where
  fromMemberId : MemberId
  toMemberId : MemberId
  amount : ℚ
deriving DecidableEq, Repr

/-- Credit the payer with the full expense amount, but only when the payer id
is set and already a key of the balance map; then debit every split member by
the owed amount (creating keys as needed). -/
def applyExpense (b : Balances) (e : GroupExpense) (splits : List StoredSplit) :
    Balances :=
  let b1 :=
    match e.paidByMemberId with
    | some p => if (getBal b p).isSome then addBal p e.amount b else b
    | none => b
  splits.foldl (fun acc s => addBal s.memberId (-s.amount) acc) b1

/-- Debit the paying member and credit the payee by the payment amount. -/
def applyPayment (b : Balances) (p : PaymentRow) : Balances :=
  addBal p.toMemberId p.amount (addBal p.fromMemberId (-p.amount) b)

/-- Initialize every group member to a zero balance. -/
def initBalances (members : List MemberId) : Balances :=
  members.foldl (fun b m => setBal m 0 b) []

/-- calculateGroupBalances: zero for each member, plus paid minus owed over
all expenses with their splits, then payments applied. -/
def calculateGroupBalances (members : List MemberId)
    (expenses : List (GroupExpense × List StoredSplit))
    (payments : List PaymentRow) : Balances :=
  let b0 := initBalances members
  let b1 := expenses.foldl (fun acc es => applyExpense acc es.1 es.2) b0
  payments.foldl applyPayment b1

/-- Sum of all values of the balance map. -/
def sumBal (b : Balances) : ℚ := (b.map (·.2)).sum

/-! ## Settlement optimizer -/

/-- One suggested transfer: fromMember pays toMember. -/
structure Suggestion where
  fromMember : MemberId
  toMember : MemberId
  amount : ℚ
deriving DecidableEq, Repr

/-- The one-cent significance threshold used by getSettlementSuggestions. -/
def epsSettle : ℚ := 1 / 100

/-- JavaScript Math.round(x * 100) / 100 on a rational (round half up). -/
def round2 (x : ℚ) : ℚ := ((⌊x * 100 + 1 / 2⌋ : ℤ) : ℚ) / 100

/-- Members whose balance exceeds one cent, paired with that balance, in
member-list order. -/
def creditorsOf (members : List MemberId) (b : Balances) :
    List (MemberId × ℚ) :=
  members.filterMap (fun m =>
    if epsSettle < (getBal b m).getD 0 then some (m, (getBal b m).getD 0)
    else none)

/-- Members whose balance is below minus one cent, paired with the absolute
value of that balance, in member-list order. -/
def debtorsOf (members : List MemberId) (b : Balances) :
    List (MemberId × ℚ) :=
  members.filterMap (fun m =>
    if (getBal b m).getD 0 < -epsSettle then some (m, -(getBal b m).getD 0)
    else none)

/-- Stable insertion step for sorting by amount descending: the inserted
element (which precedes the already-sorted elements in the original list)
moves past exactly the strictly greater amounts and lands in front of the
first tie, so equal amounts keep their original relative order, as
JavaScript Array.prototype.sort does with the comparator
(a, b) => b.amount - a.amount. -/
def insertDesc (x : MemberId × ℚ) : List (MemberId × ℚ) → List (MemberId × ℚ)
  | [] => [x]
  | y :: ys => if y.2 ≤ x.2 then x :: y :: ys else y :: insertDesc x ys

/-- Stable sort by amount descending. -/
def sortDesc (l : List (MemberId × ℚ)) : List (MemberId × ℚ) :=
  l.foldr insertDesc []

/-- The greedy matching loop of getSettlementSuggestions.  Each round pairs
the current largest creditor and debtor, emits a transfer of the smaller
magnitude (rounded to cents for display), subtracts it from both, and drops
each party whose residual falls below one cent.  The leading guard models the
early break on sub-cent amounts in the source. -/
def greedySettle : List (MemberId × ℚ) → List (MemberId × ℚ) → List Suggestion
  | [], _ => []
  | _ :: _, [] => []
  | c :: cs, d :: ds =>
    if c.2 < epsSettle ∨ d.2 < epsSettle then []
    else
      let amt := min c.2 d.2
      let s : Suggestion := ⟨d.1, c.1, round2 amt⟩
      if c.2 ≤ d.2 then
        if d.2 - amt < epsSettle then s :: greedySettle cs ds
        else s :: greedySettle cs ((d.1, d.2 - amt) :: ds)
      else
        if c.2 - amt < epsSettle then s :: greedySettle cs ds
        else s :: greedySettle ((c.1, c.2 - amt) :: cs) ds
termination_by l1 l2 => l1.length + l2.length
decreasing_by all_goals simp_arith

/-- getSettlementSuggestions as a function of the member list and the balance
map it reads. -/
def getSettlementSuggestions (members : List MemberId) (b : Balances) :
    List Suggestion :=
  greedySettle (sortDesc (creditorsOf members b)) (sortDesc (debtorsOf members b))

/-- Apply one suggested transfer to the balance map: the paying member's
balance rises by the amount (the debt recorded as a negative balance shrinks)
and the receiving member's balance falls by it. -/
def applySuggestion (b : Balances) (s : Suggestion) : Balances :=
  addBal s.toMember (-s.amount) (addBal s.fromMember s.amount b)

/-- Apply a whole suggestion list in order. -/
def applySuggestions (b : Balances) (ss : List Suggestion) : Balances :=
  ss.foldl applySuggestion b

/-- Number of members whose balance is non-zero. -/
def nonzeroCount (members : List MemberId) (b : Balances) : Nat :=
  (members.filter (fun m => (getBal b m).getD 0 ≠ 0)).length

/-! ## Calendar dates

Dates are integer day numbers since 1970-01-01.  The civil conversions follow
the standard proleptic Gregorian algorithms; month arithmetic mirrors
date-fns addMonths, which clamps the day of month to the end of the target
month. -/

def isLeapYear (y : Int) : Bool := (y % 4 == 0 && y % 100 != 0) || y % 400 == 0

/-- Day count of a civil month. -/
def daysInMonth (y m : Int) : Int :=
  if m = 2 then (if isLeapYear y then 29 else 28)
  else if m = 4 ∨ m = 6 ∨ m = 9 ∨ m = 11 then 30 else 31

/-- Day number since 1970-01-01 of a civil date. -/
def daysOfCivil (y0 m d : Int) : Int :=
  let y := y0 - (if m ≤ 2 then 1 else 0)
  let era := (if 0 ≤ y then y else y - 399) / 400
  let yoe := y - era * 400
  let doy := (153 * (m + (if 2 < m then -3 else 9)) + 2) / 5 + d - 1
  let doe := yoe * 365 + yoe / 4 - yoe / 100 + doy
  era * 146097 + doe - 719468

/-- Civil date (year, month, day) of a day number. -/
def civilOfDays (z0 : Int) : Int × Int × Int :=
  let z := z0 + 719468
  let era := (if 0 ≤ z then z else z - 146096) / 146097
  let doe := z - era * 146097
  let yoe := (doe - doe / 1460 + doe / 36524 - doe / 146096) / 365
  let y := yoe + era * 400
  let doy := doe - (365 * yoe + yoe / 4 - yoe / 100)
  let mp := (5 * doy + 2) / 153
  let d := doy - (153 * mp + 2) / 5 + 1
  let m := mp + (if mp < 10 then 3 else -9)
  (y + (if m ≤ 2 then 1 else 0), m, d)

/-- Convenience constructor for concrete dates. -/
def mkDate (y m d : Int) : Int := daysOfCivil y m d

/-- date-fns addMonths: advance the month, clamping the day of month into the
target month. -/
def addMonthsDate (d0 v : Int) : Int :=
  let c := civilOfDays d0
  let mm := c.2.1 - 1 + v
  let y2 := c.1 + mm / 12
  let m2 := mm % 12 + 1
  daysOfCivil y2 m2 (min c.2.2 (daysInMonth y2 m2))

/-! ## Recurrence planner -/

inductive RecInterval
  | daily
  | weekly
  | monthly
  | custom
deriving DecidableEq, Repr

/-- A recurring expense rule as stored in the recurring table. -/
structure RecurringRule where
  amount : ℚ
  currencyCode : String
  category : String
  description : Option String
  interval : RecInterval
  intervalValue : Int
  startDate : Int
  endDate : Option Int
  lastGenerated : Option Int
  groupId : Option String
deriving DecidableEq, Repr

/-- getNextDate: add the interval to a date (custom means days). -/
def getNextDate (d : Int) : RecInterval → Int → Int
  | .daily, v => d + v
  | .weekly, v => d + 7 * v
  | .monthly, v => addMonthsDate d v
  | .custom, v => d + v

/-- The expense data materialized for one occurrence of a rule (the object the
generator builds and pushes; its persisted form goes through createExpense). -/
structure GenExpense where
  amount : ℚ
  currencyCode : String
  category : String
  description : Option String
  date : Int
  groupId : Option String
deriving DecidableEq, Repr

/-- Build the materialized expense of one occurrence. -/
def mkGenExpense (p : RecurringRule) (d : Int) : GenExpense :=
  ⟨p.amount, p.currencyCode, p.category, p.description, d, p.groupId⟩

/-- The mid-loop stop test: break once the occurrence passes the end date. -/
def endBreak : Option Int → Int → Bool
  | some e, cur => decide (e < cur)
  | none, _ => false

/-- The inner while loop of generateRecurringExpenses for one rule: while the
occurrence is on or before now (day granularity) and not past the end date,
materialize it, remember it as the freshly persisted lastGenerated, and step
to the next occurrence.  The source loop has no iteration bound; the fuel
argument makes the embedding total, and every theorem below supplies enough
fuel for the loop to stop at its own condition. -/
def genLoop (p : RecurringRule) (now : Int) :
    Nat → Int → List GenExpense × Option Int
  | 0, _ => ([], none)
  | fuel + 1, cur =>
    if cur ≤ now then
      if endBreak p.endDate cur then ([], none)
      else
        let r := genLoop p now fuel (getNextDate cur p.interval p.intervalValue)
        (mkGenExpense p cur :: r.1, some (r.2.getD cur))
    else ([], none)

/-- The top-of-loop skip: a rule whose end date lies strictly before now is
passed over entirely. -/
def ruleSkipped (p : RecurringRule) (now : Int) : Bool :=
  match p.endDate with
  | some e => decide (e < now)
  | none => false

/-- The generation cursor starts from lastGenerated, or from the start date
when the rule has never generated. -/
def ruleBase (p : RecurringRule) : Int := p.lastGenerated.getD p.startDate

/-- One rule's slice of generateRecurringExpenses: skip ended rules, otherwise
run the loop from the first occurrence after the cursor, returning the
materialized expenses and the rule with its persisted lastGenerated. -/
def generateForRule (fuel : Nat) (p : RecurringRule) (now : Int) :
    List GenExpense × RecurringRule :=
  if ruleSkipped p now then ([], p)
  else
    let r := genLoop p now fuel (getNextDate (ruleBase p) p.interval p.intervalValue)
    (r.1, { p with lastGenerated := match r.2 with
                                    | some l => some l
                                    | none => p.lastGenerated })

/-- The occurrence chain of a rule: position 0 is the cursor, position i + 1
is one interval later. -/
def nthOcc (p : RecurringRule) : Nat → Int
  | 0 => ruleBase p
  | i + 1 => getNextDate (nthOcc p i) p.interval p.intervalValue

/-- The rule's interval strictly advances every date.  This holds for any
daily, weekly or custom rule with a positive interval value, and is the
termination assumption under which the source loop finishes at all. -/
def StepPos (p : RecurringRule) : Prop :=
  ∀ d : Int, d < getNextDate d p.interval p.intervalValue

/-! ## Personal expense store and undo flows -/

/-- One row of the local expenses table. -/
structure StoredExpense where
  id : String
  amount : ℚ
  currencyCode : String
  category : String
  description : Option String
  notes : Option String
  date : Int
  groupId : Option String
  paidByMemberId : Option String
  createdAt : String
  updatedAt : String
deriving DecidableEq, Repr

/-- The runtime argument shape of createExpense: callers (the recurrence
planner, the undo service) do pass a groupId, which the insert ignores.
Notes are modeled as the plaintext the caller supplies; encryption at rest
with a matching decrypt on read is identity at this level. -/
structure ExpenseInput where
  amount : ℚ
  currencyCode : String
  category : String
  description : Option String
  notes : Option String
  date : Int
  groupId : Option String
deriving DecidableEq, Repr

abbrev ExpenseTable := List StoredExpense

/-- createExpense: insert a fresh row.  The groupId and paidByMemberId columns
are hardcoded to null regardless of the input. -/
def createExpense (inp : ExpenseInput) (freshId now : String)
    (tbl : ExpenseTable) : StoredExpense × ExpenseTable :=
  let row : StoredExpense :=
    { id := freshId
      amount := inp.amount
      currencyCode := inp.currencyCode
      category := inp.category
      description := inp.description
      notes := inp.notes
      date := inp.date
      groupId := none
      paidByMemberId := none
      createdAt := now
      updatedAt := now }
  (row, tbl ++ [row])

/-- The update payload of updateExpense, restricted to the columns the UPDATE
statement actually persists from the merged object (groupId and
paidByMemberId are written as null unconditionally, and createdAt is never
touched). -/
structure ExpenseUpdates where
  amount : Option ℚ
  currencyCode : Option String
  category : Option String
  description : Option (Option String)
  notes : Option (Option String)
  date : Option Int
deriving DecidableEq, Repr

/-- getExpenseById on the table. -/
def getExpenseRow (tbl : ExpenseTable) (id : String) : Option StoredExpense :=
  tbl.find? (fun r => r.id = id)

/-- The merged row persisted by updateExpense: spread of the existing row and
the updates, with groupId and paidByMemberId forced to null and updatedAt
refreshed. -/
def mergedRow (ex : StoredExpense) (u : ExpenseUpdates) (now : String) :
    StoredExpense :=
  { ex with
    amount := u.amount.getD ex.amount
    currencyCode := u.currencyCode.getD ex.currencyCode
    category := u.category.getD ex.category
    description := u.description.getD ex.description
    notes := u.notes.getD ex.notes
    date := u.date.getD ex.date
    groupId := none
    paidByMemberId := none
    updatedAt := now }

/-- updateExpense: none when the id is not found (the Expense-not-found
throw); otherwise every row with the id is overwritten by the merged row. -/
def updateExpense (id : String) (u : ExpenseUpdates) (now : String)
    (tbl : ExpenseTable) : Option ExpenseTable :=
  match getExpenseRow tbl id with
  | none => none
  | some ex => some (tbl.map (fun r => if r.id = id then mergedRow ex u now else r))

/-- deleteExpense: remove every row with the id. -/
def deleteExpense (id : String) (tbl : ExpenseTable) : ExpenseTable :=
  tbl.filter (fun r => r.id ≠ id)

/-- The update payload the undo service passes to restore a prior snapshot:
every persisted column of the snapshot. -/
def toUpdates (x : StoredExpense) : ExpenseUpdates :=
  ⟨some x.amount, some x.currencyCode, some x.category, some x.description,
    some x.notes, some x.date⟩

/-- The createExpense argument the undo service builds from a deleted
snapshot (it forwards the snapshot's groupId, which the insert discards). -/
def toInput (x : StoredExpense) : ExpenseInput :=
  ⟨x.amount, x.currencyCode, x.category, x.description, x.notes, x.date,
    x.groupId⟩

/-- The createExpense argument the recurrence planner builds from a
materialized occurrence (no notes field; the rule's groupId is forwarded). -/
def inputOfGen (g : GenExpense) : ExpenseInput :=
  ⟨g.amount, g.currencyCode, g.category, g.description, none, g.date,
    g.groupId⟩

/-- Flow: add an expense (store flow records an add undo entry holding the
created row), then undo, which deletes by the recorded id. -/
def addThenUndo (inp : ExpenseInput) (freshId now : String)
    (tbl : ExpenseTable) : ExpenseTable :=
  let r := createExpense inp freshId now tbl
  deleteExpense r.1.id r.2

/-- Flow: edit the expense with id x.id (the store snapshots the prior row x
in an edit undo entry), then undo, which re-applies the snapshot fields. -/
def editThenUndo (x : StoredExpense) (u : ExpenseUpdates) (now1 now2 : String)
    (tbl : ExpenseTable) : Option ExpenseTable :=
  (updateExpense x.id u now1 tbl).bind (updateExpense x.id (toUpdates x) now2)

/-- Flow: delete the expense (the store snapshots the prior row x in a delete
undo entry), then undo, which re-creates it as a new row through
createExpense. -/
def deleteThenUndo (x : StoredExpense) (freshId now2 : String)
    (tbl : ExpenseTable) : ExpenseTable :=
  (createExpense (toInput x) freshId now2 (deleteExpense x.id tbl)).2

/-! ## Encryption key lifecycle

The details of XChaCha20-Poly1305 are abstracted into an ideal secret box: a
ciphertext remembers the key it was sealed with, and decryption succeeds
exactly when the current key matches.  What is modeled faithfully is the
module-level key lifecycle around it. -/

inductive CryptoError
  | keychainFailure
  | keyUnavailable
  | authFailure
deriving DecidableEq, Repr

/-- The device keychain as the crypto service sees it: a stored credential if
any, the fresh key that would be generated otherwise, and whether keychain
access succeeds. -/
structure KeychainEnv where
  stored : Option String
  fresh : String
  ok : Bool
deriving DecidableEq, Repr

/-- The module-level encryptionKey variable: none is the locked state. -/
abbrev KeyState := Option String

/-- lockEncryptionKey: clear the key. -/
def lockEncryptionKey (_s : KeyState) : KeyState := none

/-- initEncryptionKey: load the stored key, or generate and store a fresh
one; a keychain failure propagates. -/
def initEncryptionKey (env : KeychainEnv) : Except CryptoError String :=
  if env.ok then
    match env.stored with
    | some k => .ok k
    | none => .ok env.fresh
  else .error .keychainFailure

/-- An ideal authenticated ciphertext. -/
structure SecretBox where
  key : String
  msg : String
deriving DecidableEq, Repr

/-- The guard shared by encrypt and decrypt: when the key is missing (locked
or never initialized) they call initEncryptionKey themselves and proceed with
its result, throwing key-not-available only if the key is still unset. -/
def ensureKey (env : KeychainEnv) (s : KeyState) : Except CryptoError String :=
  match s with
  | some k => .ok k
  | none => initEncryptionKey env

/-- encrypt: ensure a key, then seal.  Returns the ciphertext and the key
state the module variable is left in. -/
def encrypt (env : KeychainEnv) (s : KeyState) (plaintext : String) :
    Except CryptoError (SecretBox × KeyState) :=
  match ensureKey env s with
  | .error e => .error e
  | .ok k => .ok (⟨k, plaintext⟩, some k)

/-- decrypt: ensure a key, then open; a key mismatch is the authentication
failure path. -/
def decrypt (env : KeychainEnv) (s : KeyState) (c : SecretBox) :
    Except CryptoError (String × KeyState) :=
  match ensureKey env s with
  | .error e => .error e
  | .ok k => if c.key = k then .ok (c.msg, some k) else .error .authFailure

/-- Combine the lastGenerated produced by two successive runs: the second run
wins when it generated anything, otherwise the first stands. -/
def mergeLastGen (a b : Option Int) : Option Int :=
  match b with
  | some l => some l
  | none => a

/-- Where a later loop run starts, given what an earlier run left as its last
materialized occurrence: one interval past it, or the unchanged cursor. -/
def restartCursor (p : RecurringRule) (cur : Int) (lg : Option Int) : Int :=
  match lg with
  | some l => getNextDate l p.interval p.intervalValue
  | none => cur

/-- A concrete daily rule with no end date, used to instantiate the
recurrence theorems. -/
def dailyRule : RecurringRule :=
  { amount := 5, currencyCode := "USD", category := "coffee",
    description := none, interval := .daily, intervalValue := 1,
    startDate := 0, endDate := none, lastGenerated := none, groupId := none }

/-- A concrete daily rule whose end date (day 2) passed before the planner
ran. -/
def endedDailyRule : RecurringRule :=
  { amount := 1, currencyCode := "USD", category := "bills",
    description := none, interval := .daily, intervalValue := 1,
    startDate := 0, endDate := some 2, lastGenerated := none, groupId := none }

/-- The spec's example rule: monthly from 2024-01-01, last generated
2024-01-01. -/
def monthlyRuleExample : RecurringRule :=
  { amount := 1200, currencyCode := "USD", category := "rent",
    description := some "monthly rent", interval := .monthly,
    intervalValue := 1, startDate := mkDate 2024 1 1, endDate := none,
    lastGenerated := some (mkDate 2024 1 1), groupId := none }

/-! ## Helper lemmas on the balance map -/

theorem getBal_cons (kv : MemberId × ℚ) (rest : Balances) (p : MemberId) :
    getBal (kv :: rest) p = if kv.1 = p then some kv.2 else getBal rest p := by
  by_cases h : kv.1 = p <;> simp [getBal, List.find?_cons, h]

theorem addBal_cons (m : MemberId) (d : ℚ) (kv : MemberId × ℚ) (rest : Balances) :
    addBal m d (kv :: rest) =
      if kv.1 = m then (m, kv.2 + d) :: rest else kv :: addBal m d rest := by
  by_cases h : kv.1 = m <;> simp [addBal, getBal_cons, setBal, h]

theorem sumBal_cons (kv : MemberId × ℚ) (rest : Balances) :
    sumBal (kv :: rest) = kv.2 + sumBal rest := by
  simp [sumBal]

theorem sumBal_addBal (m : MemberId) (d : ℚ) (b : Balances) :
    sumBal (addBal m d b) = sumBal b + d := by
  induction b with
  | nil => simp [addBal, getBal, setBal, sumBal]
  | cons kv rest ih =>
      rw [addBal_cons]
      by_cases h : kv.1 = m
      · simp only [h, if_true, sumBal_cons]
        ring
      · simp only [h, if_false, sumBal_cons, ih]
        ring

theorem isSome_getBal_addBal (m : MemberId) (d : ℚ) (b : Balances) (p : MemberId)
    (h : (getBal b p).isSome) : (getBal (addBal m d b) p).isSome := by
  induction b with
  | nil => simp [getBal] at h
  | cons kv rest ih =>
      rw [addBal_cons]
      by_cases hm : kv.1 = m
      · rw [if_pos hm, getBal_cons]
        rw [getBal_cons] at h
        by_cases hp : kv.1 = p
        · simp [hm ▸ hp]
        · have hmp : ¬ m = p := fun hc => hp (hm.trans hc)
          simp only [hp, if_false] at h
          simpa [hmp] using h
      · rw [if_neg hm, getBal_cons]
        rw [getBal_cons] at h
        by_cases hp : kv.1 = p
        · simp [hp]
        · simp only [hp, if_false] at h ⊢
          exact ih h

theorem getBal_addBal_ne (m : MemberId) (d : ℚ) (b : Balances) (p : MemberId)
    (h : p ≠ m) : getBal (addBal m d b) p = getBal b p := by
  induction b with
  | nil => simp [addBal, getBal, setBal, List.find?, Ne.symm h]
  | cons kv rest ih =>
      rw [addBal_cons]
      by_cases hm : kv.1 = m
      · have hp : ¬ kv.1 = p := fun hc => h (by rw [← hc, hm])
        rw [if_pos hm, getBal_cons, getBal_cons]
        simp [Ne.symm h, hp]
      · rw [if_neg hm, getBal_cons, getBal_cons]
        by_cases hp : kv.1 = p
        · simp [hp]
        · simp [hp, ih]

theorem mem_setBal (kv : MemberId × ℚ) (m : MemberId) (v : ℚ) (b : Balances)
    (h : kv ∈ setBal m v b) : kv = (m, v) ∨ kv ∈ b := by
  induction b with
  | nil => simpa [setBal] using h
  | cons hd rest ih =>
      by_cases hm : hd.1 = m
      · rw [setBal, if_pos hm] at h
        rcases List.mem_cons.mp h with h | h
        · exact Or.inl h
        · exact Or.inr (List.mem_cons_of_mem _ h)
      · rw [setBal, if_neg hm] at h
        rcases List.mem_cons.mp h with h | h
        · exact Or.inr (h ▸ List.mem_cons_self hd rest)
        · rcases ih h with h2 | h2
          · exact Or.inl h2
          · exact Or.inr (List.mem_cons_of_mem _ h2)

theorem initBalances_all_zero (ms : List MemberId) :
    ∀ kv ∈ initBalances ms, kv.2 = 0 := by
  have key : ∀ (l : List MemberId) (b : Balances),
      (∀ kv ∈ b, kv.2 = (0 : ℚ)) →
      ∀ kv ∈ l.foldl (fun acc m => setBal m 0 acc) b, kv.2 = 0 := by
    intro l
    induction l with
    | nil => intro b hb; simpa using hb
    | cons a t ih =>
        intro b hb
        refine ih (setBal a 0 b) ?_
        intro kv hkv
        rcases mem_setBal kv a 0 b hkv with h | h
        · simp [h]
        · exact hb kv h
  exact key ms [] (by simp)

theorem sumBal_initBalances (ms : List MemberId) : sumBal (initBalances ms) = 0 := by
  have h := initBalances_all_zero ms
  unfold sumBal
  refine List.sum_eq_zero ?_
  intro x hx
  rcases List.mem_map.mp hx with ⟨kv, hkv, rfl⟩
  exact h kv hkv

theorem isSome_getBal_setBal (m : MemberId) (v : ℚ) (b : Balances) (p : MemberId)
    (h : (getBal b p).isSome ∨ p = m) : (getBal (setBal m v b) p).isSome := by
  induction b with
  | nil =>
      rcases h with h | h
      · simp [getBal] at h
      · simp [setBal, getBal_cons, h]
  | cons kv rest ih =>
      by_cases hm : kv.1 = m
      · simp only [setBal, hm, if_true]
        rw [getBal_cons] at h ⊢
        by_cases hp : m = p
        · simp [hp]
        · have hkp : ¬ kv.1 = p := fun hc => hp (hm ▸ hc)
          simp only [hp, if_false]
          rcases h with h | h
          · simpa [hkp] using h
          · exact absurd h.symm hp
      · simp only [setBal, hm, if_false]
        rw [getBal_cons] at h ⊢
        by_cases hp : kv.1 = p
        · simp [hp]
        · simp only [hp, if_false] at h ⊢
          exact ih h

theorem isSome_getBal_initBalances (ms : List MemberId) (m : MemberId)
    (h : m ∈ ms) : (getBal (initBalances ms) m).isSome := by
  have key : ∀ (l : List MemberId) (b : Balances),
      (m ∈ l ∨ (getBal b m).isSome) →
      (getBal (l.foldl (fun acc x => setBal x 0 acc) b) m).isSome := by
    intro l
    induction l with
    | nil =>
        intro b hb
        rcases hb with hb | hb
        · simp at hb
        · simpa using hb
    | cons a t ih =>
        intro b hb
        rcases hb with hb | hb
        · rcases List.mem_cons.mp hb with rfl | hm
          · exact ih (setBal m 0 b) (Or.inr (isSome_getBal_setBal m 0 b m (Or.inr rfl)))
          · exact ih (setBal a 0 b) (Or.inl hm)
        · exact ih (setBal a 0 b) (Or.inr (isSome_getBal_setBal a 0 b m (Or.inl hb)))
  exact key ms [] (Or.inl h)

theorem sumBal_splitsFold (splits : List StoredSplit) (b : Balances) :
    sumBal (splits.foldl (fun acc s => addBal s.memberId (-s.amount) acc) b) =
      sumBal b - (splits.map (·.amount)).sum := by
  induction splits generalizing b with
  | nil => simp
  | cons s t ih =>
      simp only [List.foldl_cons, List.map_cons, List.sum_cons]
      rw [ih, sumBal_addBal]
      ring

theorem isSome_getBal_splitsFold (splits : List StoredSplit) (b : Balances)
    (p : MemberId) (h : (getBal b p).isSome) :
    (getBal (splits.foldl (fun acc s => addBal s.memberId (-s.amount) acc) b) p).isSome := by
  induction splits generalizing b with
  | nil => simpa using h
  | cons s t ih =>
      simp only [List.foldl_cons]
      exact ih _ (isSome_getBal_addBal _ _ _ _ h)

theorem sumBal_applyExpense (b : Balances) (e : GroupExpense)
    (splits : List StoredSplit) (p : MemberId)
    (hp : e.paidByMemberId = some p) (hkey : (getBal b p).isSome)
    (hsum : (splits.map (·.amount)).sum = e.amount) :
    sumBal (applyExpense b e splits) = sumBal b := by
  unfold applyExpense
  rw [hp]
  simp only [hkey, if_true]
  rw [sumBal_splitsFold, sumBal_addBal, hsum]
  ring

theorem isSome_getBal_applyExpense (b : Balances) (e : GroupExpense)
    (splits : List StoredSplit) (q : MemberId) (h : (getBal b q).isSome) :
    (getBal (applyExpense b e splits) q).isSome := by
  unfold applyExpense
  cases hpe : e.paidByMemberId with
  | none => exact isSome_getBal_splitsFold _ _ _ h
  | some p =>
      by_cases hk : (getBal b p).isSome
      · simp only [hk, if_true]
        exact isSome_getBal_splitsFold _ _ _ (isSome_getBal_addBal _ _ _ _ h)
      · simp only [hk, if_false]
        exact isSome_getBal_splitsFold _ _ _ h

theorem sumBal_applyPayment (b : Balances) (p : PaymentRow) :
    sumBal (applyPayment b p) = sumBal b := by
  unfold applyPayment
  rw [sumBal_addBal, sumBal_addBal]
  ring

theorem sumBal_paymentsFold (payments : List PaymentRow) (b : Balances) :
    sumBal (payments.foldl applyPayment b) = sumBal b := by
  induction payments generalizing b with
  | nil => simp
  | cons p t ih =>
      simp only [List.foldl_cons]
      rw [ih, sumBal_applyPayment]

/-! ## Claim C1 -/

/-- C1, counterexample: a recorded expense whose payer reference is absent
(null) is never credited, while its splits are still debited, so the balance
map of a group holding one such expense sums to minus the expense amount, far
outside one minor unit of zero. -/
theorem c1_counterexample :
    sumBal (calculateGroupBalances ["A"] [(⟨none, 10⟩, [⟨"A", 10, none⟩])] []) = -10 ∧
    ¬ (|(-10 : ℚ)| ≤ 1 / 100) := by
  constructor
  · norm_num [calculateGroupBalances, initBalances, applyExpense, addBal, getBal,
      setBal, sumBal, List.find?]
  · norm_num

/-- C1, amended: when every recorded expense carries a payer that is a member
of the group and splits that sum exactly to the expense amount, the balance
map returned by calculateGroupBalances (payer credited in full, split members
debited, payments moving value from payer to payee) sums to exactly zero. -/
theorem c1_amended (members : List MemberId)
    (expenses : List (GroupExpense × List StoredSplit))
    (payments : List PaymentRow)
    (h : ∀ es ∈ expenses, ∃ p, es.1.paidByMemberId = some p ∧ p ∈ members ∧
      (es.2.map (·.amount)).sum = es.1.amount) :
    sumBal (calculateGroupBalances members expenses payments) = 0 := by
  unfold calculateGroupBalances
  rw [sumBal_paymentsFold]
  have key : ∀ (l : List (GroupExpense × List StoredSplit)) (b : Balances),
      (∀ es ∈ l, ∃ p, es.1.paidByMemberId = some p ∧ p ∈ members ∧
        (es.2.map (·.amount)).sum = es.1.amount) →
      (∀ m ∈ members, (getBal b m).isSome) →
      sumBal b = 0 →
      sumBal (l.foldl (fun acc es => applyExpense acc es.1 es.2) b) = 0 := by
    intro l
    induction l with
    | nil => intro b _ _ hb; simpa using hb
    | cons es t ih =>
        intro b hl hkeys hb
        rcases hl es (List.mem_cons_self _ _) with ⟨p, hp, hpm, hsum⟩
        simp only [List.foldl_cons]
        refine ih (applyExpense b es.1 es.2)
          (fun x hx => hl x (List.mem_cons_of_mem _ hx)) ?_ ?_
        · intro m hm
          exact isSome_getBal_applyExpense _ _ _ _ (hkeys m hm)
        · rw [sumBal_applyExpense b es.1 es.2 p hp (hkeys p hpm) hsum, hb]
  exact key expenses (initBalances members) h
    (fun m hm => isSome_getBal_initBalances members m hm)
    (sumBal_initBalances members)

/-- C1 witness: the spec's own example group (A pays 90, split 30/30/30 among
A, B, C) plus one settle-up payment, balancing to exactly zero. -/
theorem c1_witness :
    sumBal (calculateGroupBalances ["A", "B", "C"]
      [(⟨some "A", 90⟩, [⟨"A", 30, none⟩, ⟨"B", 30, none⟩, ⟨"C", 30, none⟩])]
      [⟨"B", "A", 30⟩]) = 0 := by
  refine c1_amended _ _ _ ?_
  intro es hes
  simp only [List.mem_singleton] at hes
  subst hes
  exact ⟨"A", rfl, by simp, by norm_num⟩

/-! ## Claim C2 -/

/-- C2, counterexample: for a 1.00 expense split among three members the
source assigns every member exactly one third, which is not a whole number of
minor units, and no remainder cent is assigned to the first member (the claim
would require 0.34 for the first member). -/
theorem c2_counterexample :
    (splitExpenseEqually ["a", "b", "c"] 1).map (·.amount) = [1/3, 1/3, 1/3] ∧
    (¬ ∃ k : ℤ, ((1 : ℚ) / 3) * 100 = (k : ℚ)) ∧
    ((1 : ℚ) / 3) ≠ 34 / 100 := by
  refine ⟨by norm_num [splitExpenseEqually], ?_, by norm_num⟩
  rintro ⟨k, hk⟩
  have h3 : (100 : ℚ) = 3 * (k : ℚ) := by linarith
  have h4 : (100 : ℤ) = 3 * k := by exact_mod_cast h3
  omega

/-- C2, amended: splitExpenseEqually gives every member the same exact
rational share totalAmount / N (no minor-unit rounding, no remainder
distribution), and those shares sum to the expense amount exactly, for any
member count from 1 to 50. -/
theorem c2_amended (ms : List MemberId) (t : ℚ)
    (h1 : 1 ≤ ms.length) (h50 : ms.length ≤ 50) :
    (splitExpenseEqually ms t).map (·.amount) =
      ms.map (fun _ => t / (ms.length : ℚ)) ∧
    ((splitExpenseEqually ms t).map (·.amount)).sum = t := by
  have hmap : (splitExpenseEqually ms t).map (·.amount) =
      ms.map (fun _ => t / (ms.length : ℚ)) := by
    simp only [splitExpenseEqually, List.map_map]
    rfl
  refine ⟨hmap, ?_⟩
  rw [hmap]
  have hn : (ms.length : ℚ) ≠ 0 := by
    have : 0 < ms.length := h1
    exact_mod_cast this.ne'
  rw [List.map_const', List.sum_replicate, nsmul_eq_mul, mul_comm,
    div_mul_cancel₀ t hn]

/-- C2 witness: two members splitting 5.00 receive 2.50 each, summing to 5. -/
theorem c2_witness :
    ((splitExpenseEqually ["a", "b"] 5).map (·.amount)).sum = 5 :=
  (c2_amended ["a", "b"] 5 (by decide) (by decide)).2

/-! ## Claim C3 -/

/-- C3, counterexample: percentages summing to 50 (outside the claimed
tolerance around 100) still produce a persisted split, and a by-amount split
of 3 against a 10.00 expense is persisted as well; no error path exists. -/
theorem c3_counterexample :
    ¬ (|(50 : ℚ) - 100| ≤ 1 / 100) ∧
    splitsTableAfterPercentage [⟨"old", 1, none⟩] [("a", 50)] 10 =
      [⟨"a", 5, some 50⟩] ∧
    splitsTableAfterAmount [⟨"old", 1, none⟩] [("a", 3)] = [⟨"a", 3, none⟩] ∧
    (3 : ℚ) ≠ 10 := by
  refine ⟨by norm_num, ?_, ?_, by norm_num⟩
  · norm_num [splitsTableAfterPercentage, splitExpenseByPercentage]
  · norm_num [splitsTableAfterAmount, splitExpenseByAmount]

/-- Sum of the amounts produced by the percentage formula. -/
theorem sum_map_percentage (t : ℚ) (l : List (MemberId × ℚ)) :
    ((l.map (fun s => t * s.2 / 100)).sum) = t * (l.map (·.2)).sum / 100 := by
  induction l with
  | nil => simp
  | cons s r ih =>
      simp only [List.map_cons, List.sum_cons, ih]
      ring

/-- C3, amended: neither split operation validates anything or can fail. The
percentage variant always replaces the stored splits of the expense with one
row of amount totalAmount * percentage / 100 per entry, and the by-amount
variant always persists the caller-supplied amounts (it does not even receive
the expense total); when the percentages happen to sum to 100 the persisted
amounts do sum to the expense amount exactly. -/
theorem c3_amended (old : List StoredSplit) (ps : List (MemberId × ℚ))
    (t : ℚ) (amts : List (MemberId × ℚ)) :
    splitsTableAfterPercentage old ps t =
      ps.map (fun s => ⟨s.1, t * s.2 / 100, some s.2⟩) ∧
    splitsTableAfterAmount old amts = amts.map (fun s => ⟨s.1, s.2, none⟩) ∧
    ((ps.map (·.2)).sum = 100 →
      ((splitsTableAfterPercentage old ps t).map (·.amount)).sum = t) := by
  refine ⟨rfl, rfl, ?_⟩
  intro hsum
  have : (splitsTableAfterPercentage old ps t).map (·.amount) =
      ps.map (fun s => t * s.2 / 100) := by
    simp [splitsTableAfterPercentage, splitExpenseByPercentage, List.map_map,
      Function.comp]
  rw [this, sum_map_percentage, hsum]
  norm_num

/-- C3 witness: a 60/40 percentage split of 12.50 is persisted and sums back
to 12.50. -/
theorem c3_witness :
    ((splitsTableAfterPercentage [] [("a", 60), ("b", 40)] (25/2)).map
      (·.amount)).sum = 25/2 :=
  (c3_amended [] [("a", 60), ("b", 40)] (25/2) []).2.2 (by norm_num)

/-! ## Helper lemmas on the settlement optimizer -/

theorem mem_insertDesc (z x : MemberId × ℚ) (l : List (MemberId × ℚ))
    (h : z ∈ insertDesc x l) : z = x ∨ z ∈ l := by
  induction l with
  | nil => simpa [insertDesc] using h
  | cons y ys ih =>
      by_cases hlt : y.2 ≤ x.2
      · rw [insertDesc, if_pos hlt] at h
        rcases List.mem_cons.mp h with h | h
        · exact Or.inl h
        · exact Or.inr h
      · rw [insertDesc, if_neg hlt] at h
        rcases List.mem_cons.mp h with h | h
        · exact Or.inr (h ▸ List.mem_cons_self y ys)
        · rcases ih h with h2 | h2
          · exact Or.inl h2
          · exact Or.inr (List.mem_cons_of_mem _ h2)

theorem insertDesc_perm (x : MemberId × ℚ) (l : List (MemberId × ℚ)) :
    (insertDesc x l).Perm (x :: l) := by
  induction l with
  | nil => simp [insertDesc]
  | cons y ys ih =>
      by_cases hlt : y.2 ≤ x.2
      · rw [insertDesc, if_pos hlt]
      · rw [insertDesc, if_neg hlt]
        exact (ih.cons y).trans (List.Perm.swap x y ys)

theorem sortDesc_perm (l : List (MemberId × ℚ)) : (sortDesc l).Perm l := by
  induction l with
  | nil => simp [sortDesc]
  | cons x t ih =>
      have : sortDesc (x :: t) = insertDesc x (sortDesc t) := rfl
      rw [this]
      exact (insertDesc_perm x (sortDesc t)).trans (ih.cons x)

theorem pairwise_insertDesc (x : MemberId × ℚ) (l : List (MemberId × ℚ))
    (h : l.Pairwise (fun a b => b.2 ≤ a.2)) :
    (insertDesc x l).Pairwise (fun a b => b.2 ≤ a.2) := by
  induction l with
  | nil => simp [insertDesc]
  | cons y ys ih =>
      rcases List.pairwise_cons.mp h with ⟨hy, hys⟩
      by_cases hlt : y.2 ≤ x.2
      · rw [insertDesc, if_pos hlt]
        refine List.pairwise_cons.mpr ⟨?_, h⟩
        intro z hz
        rcases List.mem_cons.mp hz with rfl | hz
        · exact hlt
        · exact le_trans (hy z hz) hlt
      · rw [insertDesc, if_neg hlt]
        refine List.pairwise_cons.mpr ⟨?_, ih hys⟩
        intro z hz
        rcases mem_insertDesc z x ys hz with rfl | hz
        · exact (not_le.mp hlt).le
        · exact hy z hz

theorem sortDesc_pairwise (l : List (MemberId × ℚ)) :
    (sortDesc l).Pairwise (fun a b => b.2 ≤ a.2) := by
  induction l with
  | nil => simp [sortDesc]
  | cons x t ih => exact pairwise_insertDesc x (sortDesc t) ih

theorem length_insertDesc (x : MemberId × ℚ) (l : List (MemberId × ℚ)) :
    (insertDesc x l).length = l.length + 1 := by
  induction l with
  | nil => simp [insertDesc]
  | cons y ys ih =>
      by_cases hlt : y.2 ≤ x.2
      · rw [insertDesc, if_pos hlt]
        simp
      · rw [insertDesc, if_neg hlt]
        simp [ih]

theorem length_sortDesc (l : List (MemberId × ℚ)) :
    (sortDesc l).length = l.length := by
  induction l with
  | nil => rfl
  | cons x t ih =>
      have : sortDesc (x :: t) = insertDesc x (sortDesc t) := rfl
      rw [this, length_insertDesc, ih, List.length_cons]

theorem greedySettle_length (l1 l2 : List (MemberId × ℚ)) :
    (greedySettle l1 l2).length ≤ l1.length + l2.length - 1 := by
  induction l1, l2 using greedySettle.induct with
  | case1 l2 => simp [greedySettle]
  | case2 => simp [greedySettle]
  | case3 c cs d ds h =>
      rw [greedySettle]
      simp [if_pos h]
  | case4 c cs d ds h amt hle hdrop ih =>
      rw [greedySettle]
      simp only [if_neg h, if_pos hle, if_pos hdrop, List.length_cons]
      omega
  | case5 c cs d ds h amt hle hdrop ih =>
      rw [greedySettle]
      simp only [if_neg h, if_pos hle, if_neg hdrop, List.length_cons]
      rw [show (c.2 ⊓ d.2) = amt from rfl]
      simp only [List.length_cons] at ih
      omega
  | case6 c cs d ds h amt hgt hdrop ih =>
      rw [greedySettle]
      simp only [if_neg h, if_neg hgt, if_pos hdrop, List.length_cons]
      omega
  | case7 c cs d ds h amt hgt hdrop ih =>
      rw [greedySettle]
      simp only [if_neg h, if_neg hgt, if_neg hdrop, List.length_cons]
      rw [show (c.2 ⊓ d.2) = amt from rfl]
      simp only [List.length_cons] at ih
      omega

theorem greedySettle_mem (l1 l2 : List (MemberId × ℚ)) (s : Suggestion)
    (hs : s ∈ greedySettle l1 l2) :
    s.toMember ∈ l1.map Prod.fst ∧ s.fromMember ∈ l2.map Prod.fst := by
  induction l1, l2 using greedySettle.induct with
  | case1 l2 => simp [greedySettle] at hs
  | case2 => simp [greedySettle] at hs
  | case3 c cs d ds h =>
      rw [greedySettle] at hs
      simp [if_pos h] at hs
  | case4 c cs d ds h amt hle hdrop ih =>
      rw [greedySettle] at hs
      simp only [if_neg h, if_pos hle, if_pos hdrop] at hs
      rcases List.mem_cons.mp hs with rfl | hs
      · exact ⟨by simp, by simp⟩
      · rcases ih hs with ⟨h1, h2⟩
        exact ⟨List.mem_cons_of_mem _ h1, List.mem_cons_of_mem _ h2⟩
  | case5 c cs d ds h amt hle hdrop ih =>
      rw [greedySettle] at hs
      simp only [if_neg h, if_pos hle, if_neg hdrop] at hs
      rcases List.mem_cons.mp hs with rfl | hs
      · exact ⟨by simp, by simp⟩
      · rcases ih hs with ⟨h1, h2⟩
        refine ⟨List.mem_cons_of_mem _ h1, ?_⟩
        simpa using h2
  | case6 c cs d ds h amt hgt hdrop ih =>
      rw [greedySettle] at hs
      simp only [if_neg h, if_neg hgt, if_pos hdrop] at hs
      rcases List.mem_cons.mp hs with rfl | hs
      · exact ⟨by simp, by simp⟩
      · rcases ih hs with ⟨h1, h2⟩
        exact ⟨List.mem_cons_of_mem _ h1, List.mem_cons_of_mem _ h2⟩
  | case7 c cs d ds h amt hgt hdrop ih =>
      rw [greedySettle] at hs
      simp only [if_neg h, if_neg hgt, if_neg hdrop] at hs
      rcases List.mem_cons.mp hs with rfl | hs
      · exact ⟨by simp, by simp⟩
      · rcases ih hs with ⟨h1, h2⟩
        refine ⟨?_, List.mem_cons_of_mem _ h2⟩
        simpa using h1

theorem mem_fst_creditorsOf (ms : List MemberId) (b : Balances) (m : MemberId)
    (h : m ∈ (creditorsOf ms b).map Prod.fst) :
    epsSettle < (getBal b m).getD 0 := by
  rcases List.mem_map.mp h with ⟨p, hp, rfl⟩
  simp only [creditorsOf, List.mem_filterMap] at hp
  rcases hp with ⟨m2, _hm2, hsome⟩
  by_cases hc : epsSettle < (getBal b m2).getD 0
  · simp only [hc, if_pos] at hsome
    cases hsome
    exact hc
  · simp [hc] at hsome

theorem mem_fst_debtorsOf (ms : List MemberId) (b : Balances) (m : MemberId)
    (h : m ∈ (debtorsOf ms b).map Prod.fst) :
    (getBal b m).getD 0 < -epsSettle := by
  rcases List.mem_map.mp h with ⟨p, hp, rfl⟩
  simp only [debtorsOf, List.mem_filterMap] at hp
  rcases hp with ⟨m2, _hm2, hsome⟩
  by_cases hc : (getBal b m2).getD 0 < -epsSettle
  · simp only [hc, if_pos] at hsome
    cases hsome
    exact hc
  · simp [hc] at hsome

theorem nonzeroCount_cons (m : MemberId) (t : List MemberId) (b : Balances) :
    nonzeroCount (m :: t) b =
      (if (getBal b m).getD 0 ≠ 0 then 1 else 0) + nonzeroCount t b := by
  unfold nonzeroCount
  by_cases h3 : (getBal b m).getD 0 ≠ 0
  · rw [List.filter_cons_of_pos (by simpa using h3), if_pos h3]
    simp [Nat.add_comm]
  · rw [List.filter_cons_of_neg (by simpa using h3), if_neg h3]
    simp

theorem creditorsOf_cons (m : MemberId) (t : List MemberId) (b : Balances) :
    creditorsOf (m :: t) b =
      (if epsSettle < (getBal b m).getD 0 then [(m, (getBal b m).getD 0)]
        else []) ++ creditorsOf t b := by
  unfold creditorsOf
  rw [List.filterMap_cons]
  by_cases h1 : epsSettle < (getBal b m).getD 0 <;> simp [h1]

theorem debtorsOf_cons (m : MemberId) (t : List MemberId) (b : Balances) :
    debtorsOf (m :: t) b =
      (if (getBal b m).getD 0 < -epsSettle then [(m, -(getBal b m).getD 0)]
        else []) ++ debtorsOf t b := by
  unfold debtorsOf
  rw [List.filterMap_cons]
  by_cases h2 : (getBal b m).getD 0 < -epsSettle <;> simp [h2]

theorem creditors_debtors_count (ms : List MemberId) (b : Balances) :
    (creditorsOf ms b).length + (debtorsOf ms b).length ≤ nonzeroCount ms b := by
  induction ms with
  | nil => simp [creditorsOf, debtorsOf, nonzeroCount]
  | cons m t ih =>
      rw [nonzeroCount_cons, creditorsOf_cons, debtorsOf_cons]
      by_cases h1 : epsSettle < (getBal b m).getD 0
      · have h2 : ¬ (getBal b m).getD 0 < -epsSettle := by
          unfold epsSettle at h1 ⊢
          intro hlt
          linarith
        have h3 : (getBal b m).getD 0 ≠ 0 := by
          unfold epsSettle at h1
          intro h0
          rw [h0] at h1
          norm_num at h1
        rw [if_pos h1, if_neg h2, if_pos h3]
        simp only [List.length_append, List.length_cons, List.length_nil]
        omega
      · by_cases h2 : (getBal b m).getD 0 < -epsSettle
        · have h3 : (getBal b m).getD 0 ≠ 0 := by
            unfold epsSettle at h2
            intro h0
            rw [h0] at h2
            norm_num at h2
          rw [if_neg h1, if_pos h2, if_pos h3]
          simp only [List.length_append, List.length_cons, List.length_nil]
          omega
        · rw [if_neg h1, if_neg h2]
          simp only [List.nil_append]
          by_cases h3 : (getBal b m).getD 0 ≠ 0
          · rw [if_pos h3]
            omega
          · rw [if_neg h3]
            omega

theorem getBal_applySuggestions_of_not_mentioned (ss : List Suggestion)
    (b : Balances) (m : MemberId)
    (h : ∀ s ∈ ss, s.fromMember ≠ m ∧ s.toMember ≠ m) :
    getBal (applySuggestions b ss) m = getBal b m := by
  induction ss generalizing b with
  | nil => rfl
  | cons s t ih =>
      have hstep : getBal (applySuggestion b s) m = getBal b m := by
        rcases h s (List.mem_cons_self _ _) with ⟨h1, h2⟩
        unfold applySuggestion
        rw [getBal_addBal_ne _ _ _ _ (Ne.symm h2), getBal_addBal_ne _ _ _ _ (Ne.symm h1)]
      calc getBal (applySuggestions b (s :: t)) m
          = getBal (applySuggestions (applySuggestion b s) t) m := rfl
        _ = getBal (applySuggestion b s) m :=
            ih _ (fun s2 hs2 => h s2 (List.mem_cons_of_mem _ hs2))
        _ = getBal b m := hstep

theorem sorted_perm_distinct_eq :
    ∀ {l1 l2 : List (MemberId × ℚ)}, l1.Perm l2 →
    l1.Pairwise (fun a b => b.2 ≤ a.2) → l2.Pairwise (fun a b => b.2 ≤ a.2) →
    l1.Pairwise (fun a b => a.2 ≠ b.2) → l1 = l2 := by
  intro l1
  induction l1 with
  | nil =>
      intro l2 hperm _ _ _
      exact hperm.nil_eq
  | cons a t1 ih =>
      intro l2 hperm hs1 hs2 hd1
      cases l2 with
      | nil => exact absurd hperm.symm.nil_eq (by simp)
      | cons x t2 =>
          by_cases hax : a = x
          · subst hax
            rw [ih hperm.cons_inv (List.pairwise_cons.mp hs1).2
              (List.pairwise_cons.mp hs2).2 (List.pairwise_cons.mp hd1).2]
          · have ha2 : a ∈ t2 := by
              have hmem := hperm.mem_iff.mp (List.mem_cons_self a t1)
              rcases List.mem_cons.mp hmem with h | h
              · exact absurd h hax
              · exact h
            have hx1 : x ∈ t1 := by
              have hmem := hperm.symm.mem_iff.mp (List.mem_cons_self x t2)
              rcases List.mem_cons.mp hmem with h | h
              · exact absurd h.symm hax
              · exact h
            have h1 : a.2 ≤ x.2 := (List.pairwise_cons.mp hs2).1 a ha2
            have h2 : x.2 ≤ a.2 := (List.pairwise_cons.mp hs1).1 x hx1
            exact absurd (le_antisymm h1 h2) ((List.pairwise_cons.mp hd1).1 x hx1)

/-! ## Claim C4 -/

/-- C4, counterexample: a balance map summing to exactly zero where two
creditor/debtor pairs drop with sub-cent residuals, leaving the third
creditor (0.016) entirely unmatched: after applying every suggestion that
member is still more than one cent away from zero. -/
theorem c4_counterexample :
    sumBal [("A", 3/100), ("B", 1/50), ("C", 2/125), ("D", -(19/500)), ("E", -(7/250))] = 0 ∧
    getSettlementSuggestions ["A", "B", "C", "D", "E"]
        [("A", 3/100), ("B", 1/50), ("C", 2/125), ("D", -(19/500)), ("E", -(7/250))] =
      [⟨"D", "A", 3/100⟩, ⟨"E", "B", 1/50⟩] ∧
    (getBal (applySuggestions
        [("A", 3/100), ("B", 1/50), ("C", 2/125), ("D", -(19/500)), ("E", -(7/250))]
        (getSettlementSuggestions ["A", "B", "C", "D", "E"]
          [("A", 3/100), ("B", 1/50), ("C", 2/125), ("D", -(19/500)), ("E", -(7/250))]))
      "C").getD 0 = 2/125 ∧
    ¬ (|(2/125 : ℚ)| ≤ epsSettle) := by
  have e1 : (1/100 : ℚ) < 3/100 := by norm_num
  have e2 : (1/100 : ℚ) < 1/50 := by norm_num
  have e3 : (1/100 : ℚ) < 2/125 := by norm_num
  have e4 : ¬ ((1/100 : ℚ) < -(19/500)) := by norm_num
  have e5 : ¬ ((1/100 : ℚ) < -(7/250)) := by norm_num
  have e6 : ¬ ((3/100 : ℚ) < -(1/100)) := by norm_num
  have e7 : ¬ ((1/50 : ℚ) < -(1/100)) := by norm_num
  have e8 : ¬ ((2/125 : ℚ) < -(1/100)) := by norm_num
  have e9 : (-(19/500) : ℚ) < -(1/100) := by norm_num
  have e10 : (-(7/250) : ℚ) < -(1/100) := by norm_num
  have e11 : (2/125 : ℚ) ≤ 1/50 := by norm_num
  have e12 : (1/50 : ℚ) ≤ 3/100 := by norm_num
  have e13 : (7/250 : ℚ) ≤ 19/500 := by norm_num
  have e14 : ¬ ((3/100 : ℚ) < 1/100) := by norm_num
  have e15 : ¬ ((19/500 : ℚ) < 1/100) := by norm_num
  have e16 : ¬ ((1/50 : ℚ) < 1/100) := by norm_num
  have e17 : ¬ ((7/250 : ℚ) < 1/100) := by norm_num
  have e18 : min (3/100 : ℚ) (19/500) = 3/100 := min_eq_left (by norm_num)
  have e19 : min (1/50 : ℚ) (7/250) = 1/50 := min_eq_left (by norm_num)
  have e20 : (19/500 - 3/100 : ℚ) < 1/100 := by norm_num
  have e21 : (7/250 - 1/50 : ℚ) < 1/100 := by norm_num
  have e22 : round2 (3/100) = 3/100 := by
    unfold round2
    norm_num
  have e23 : round2 (1/50) = 1/50 := by
    unfold round2
    norm_num
  have e24 : (3/100 : ℚ) ≤ 19/500 := by norm_num
  have e25 : (1/50 : ℚ) ≤ 7/250 := by norm_num
  refine ⟨by norm_num [sumBal], ?_, ?_,
    by rw [abs_of_pos (by norm_num : (0 : ℚ) < 2/125)]; norm_num [epsSettle]⟩
  · simp [-one_div, getSettlementSuggestions, creditorsOf, debtorsOf, getBal,
      List.find?_cons, List.filterMap_cons, sortDesc, List.foldr_cons,
      insertDesc, greedySettle, epsSettle, e1, e2, e3, e4, e5, e6, e7, e8, e9,
      e10, e11, e12, e13, e14, e15, e16, e17, e18, e19, e20, e21, e22, e23,
      e24, e25]
  · simp [-one_div, getSettlementSuggestions, creditorsOf, debtorsOf, getBal,
      List.find?_cons, List.filterMap_cons, sortDesc, List.foldr_cons,
      insertDesc, greedySettle, epsSettle, applySuggestions, applySuggestion,
      addBal, setBal, e1, e2, e3, e4, e5, e6, e7, e8, e9, e10, e11, e12, e13,
      e14, e15, e16, e17, e18, e19, e20, e21, e22, e23, e24, e25]

/-- C4, amended: the suggestion count is bounded by the number of non-zero
balances minus one (in truncated subtraction), and every member whose balance
is already within one cent of zero is mentioned by no suggestion and keeps
exactly the same balance after all transfers are applied; but applying the
transfers need not drive every balance within epsilon of zero, even when the
balances sum to zero. -/
theorem c4_amended (members : List MemberId) (b : Balances) :
    (getSettlementSuggestions members b).length ≤ nonzeroCount members b - 1 ∧
    (∀ m : MemberId, |(getBal b m).getD 0| ≤ epsSettle →
      getBal (applySuggestions b (getSettlementSuggestions members b)) m =
        getBal b m) := by
  constructor
  · have h1 := greedySettle_length (sortDesc (creditorsOf members b))
      (sortDesc (debtorsOf members b))
    have h2 := creditors_debtors_count members b
    rw [length_sortDesc, length_sortDesc] at h1
    unfold getSettlementSuggestions
    omega
  · intro m hm
    apply getBal_applySuggestions_of_not_mentioned
    intro s hs
    rcases greedySettle_mem _ _ s hs with ⟨hto, hfrom⟩
    have hto2 : s.toMember ∈ (creditorsOf members b).map Prod.fst :=
      ((sortDesc_perm (creditorsOf members b)).map Prod.fst).mem_iff.mp hto
    have hfrom2 : s.fromMember ∈ (debtorsOf members b).map Prod.fst :=
      ((sortDesc_perm (debtorsOf members b)).map Prod.fst).mem_iff.mp hfrom
    constructor
    · intro hfm
      subst hfm
      have hlt := mem_fst_debtorsOf members b s.fromMember hfrom2
      rw [abs_le] at hm
      linarith [hm.1]
    · intro htm
      subst htm
      have hlt := mem_fst_creditorsOf members b s.toMember hto2
      rw [abs_le] at hm
      linarith [hm.2]

/-- C4 witness: a member sitting exactly at zero is untouched, and the count
bound holds, on a small concrete balance map. -/
theorem c4_witness :
    (getSettlementSuggestions ["Z"] [("Z", 0)]).length ≤
      nonzeroCount ["Z"] [("Z", 0)] - 1 ∧
    getBal (applySuggestions [("Z", 0)]
        (getSettlementSuggestions ["Z"] [("Z", 0)])) "Z" =
      getBal [("Z", 0)] "Z" := by
  refine ⟨(c4_amended ["Z"] [("Z", 0)]).1, ?_⟩
  refine (c4_amended ["Z"] [("Z", 0)]).2 "Z" ?_
  norm_num [getBal, List.find?_cons, epsSettle]

/-! ## Claim C9 -/

/-- C9, counterexample: the sort compares amounts only, so two creditors tied
at 2.00 keep the order in which the members were supplied, and supplying the
members in a different order permutes the suggestion list. -/
theorem c9_counterexample :
    getSettlementSuggestions ["A", "B", "C"] [("A", 2), ("B", 2), ("C", -4)] =
      [⟨"C", "A", 2⟩, ⟨"C", "B", 2⟩] ∧
    getSettlementSuggestions ["B", "A", "C"] [("A", 2), ("B", 2), ("C", -4)] =
      [⟨"C", "B", 2⟩, ⟨"C", "A", 2⟩] ∧
    ([⟨"C", "A", 2⟩, ⟨"C", "B", 2⟩] : List Suggestion) ≠
      [⟨"C", "B", 2⟩, ⟨"C", "A", 2⟩] := by
  have f1 : (1/100 : ℚ) < 2 := by norm_num
  have f2 : ¬ ((1/100 : ℚ) < -4) := by norm_num
  have f3 : ¬ ((2 : ℚ) < -(1/100)) := by norm_num
  have f4 : (-4 : ℚ) < -(1/100) := by norm_num
  have f5 : (2 : ℚ) ≤ 2 := le_refl 2
  have f6 : ¬ ((2 : ℚ) < 1/100) := by norm_num
  have f7 : ¬ ((4 : ℚ) < 1/100) := by norm_num
  have f8 : min (2 : ℚ) 4 = 2 := min_eq_left (by norm_num)
  have f9 : ¬ ((4 - 2 : ℚ) < 1/100) := by norm_num
  have f10 : round2 2 = 2 := by
    unfold round2
    norm_num
  have f11 : (4 - 2 : ℚ) = 2 := by norm_num
  have f12 : ¬ ((2 : ℚ) < -4) := by norm_num
  have f13 : (2 - 2 : ℚ) < 1/100 := by norm_num
  have f14 : min (2 : ℚ) 2 = 2 := min_eq_left f5
  have f15 : (2 : ℚ) ≤ 4 := by norm_num
  refine ⟨?_, ?_, by simp⟩
  · simp [-one_div, getSettlementSuggestions, creditorsOf, debtorsOf, getBal,
      List.find?_cons, List.filterMap_cons, sortDesc, List.foldr_cons,
      insertDesc, greedySettle, epsSettle, f1, f2, f3, f4, f5, f6, f7, f8, f9,
      f10, f11, f12, f13, f14, f15]
  · simp [-one_div, getSettlementSuggestions, creditorsOf, debtorsOf, getBal,
      List.find?_cons, List.filterMap_cons, sortDesc, List.foldr_cons,
      insertDesc, greedySettle, epsSettle, f1, f2, f3, f4, f5, f6, f7, f8, f9,
      f10, f11, f12, f13, f14, f15]

/-- C9, amended: the sort orders by amount descending only (stable, no member
id tie-break), so the suggestions depend on the member list order whenever
amounts tie; when all creditor amounts are pairwise distinct and all debtor
amounts are pairwise distinct, the output is invariant under permuting the
supplied member list. -/
theorem c9_amended (members1 members2 : List MemberId) (b : Balances)
    (hperm : members1.Perm members2)
    (hc : (creditorsOf members1 b).Pairwise (fun p q => p.2 ≠ q.2))
    (hd : (debtorsOf members1 b).Pairwise (fun p q => p.2 ≠ q.2)) :
    getSettlementSuggestions members1 b = getSettlementSuggestions members2 b := by
  have hcperm : (creditorsOf members1 b).Perm (creditorsOf members2 b) :=
    hperm.filterMap _
  have hdperm : (debtorsOf members1 b).Perm (debtorsOf members2 b) :=
    hperm.filterMap _
  have e1 : sortDesc (creditorsOf members1 b) = sortDesc (creditorsOf members2 b) := by
    refine sorted_perm_distinct_eq ?_ (sortDesc_pairwise _) (sortDesc_pairwise _) ?_
    · exact ((sortDesc_perm _).trans hcperm).trans (sortDesc_perm _).symm
    · exact ((sortDesc_perm _).pairwise_iff (fun h2 => Ne.symm h2)).mpr hc
  have e2 : sortDesc (debtorsOf members1 b) = sortDesc (debtorsOf members2 b) := by
    refine sorted_perm_distinct_eq ?_ (sortDesc_pairwise _) (sortDesc_pairwise _) ?_
    · exact ((sortDesc_perm _).trans hdperm).trans (sortDesc_perm _).symm
    · exact ((sortDesc_perm _).pairwise_iff (fun h2 => Ne.symm h2)).mpr hd
  unfold getSettlementSuggestions
  rw [e1, e2]

/-- C9 witness: a tie-free balance map yields the same suggestions for two
member orders. -/
theorem c9_witness :
    getSettlementSuggestions ["A", "B"] [("A", 5), ("B", -5)] =
      getSettlementSuggestions ["B", "A"] [("A", 5), ("B", -5)] := by
  have g1 : (1/100 : ℚ) < 5 := by norm_num
  have g2 : ¬ ((1/100 : ℚ) < -5) := by norm_num
  have g3 : ¬ ((5 : ℚ) < -(1/100)) := by norm_num
  have g4 : (-5 : ℚ) < -(1/100) := by norm_num
  refine c9_amended ["A", "B"] ["B", "A"] [("A", 5), ("B", -5)] (by decide) ?_ ?_
  · simp [-one_div, creditorsOf, getBal, List.find?_cons, List.filterMap_cons,
      epsSettle, g1, g2]
  · simp [-one_div, debtorsOf, getBal, List.find?_cons, List.filterMap_cons,
      epsSettle, g3, g4]

/-! ## Claim C7 -/

/-- Overwriting every row of a given id leaves that row as the first find
result, provided some row with the id was present. -/
theorem getExpenseRow_map_overwrite (tbl : ExpenseTable) (id : String)
    (m : StoredExpense) (hm : m.id = id) (x : StoredExpense)
    (hex : getExpenseRow tbl id = some x) :
    getExpenseRow (tbl.map (fun r => if r.id = id then m else r)) id = some m := by
  induction tbl with
  | nil => simp [getExpenseRow] at hex
  | cons r t ih =>
      simp only [getExpenseRow, List.map_cons] at hex ⊢
      by_cases hr : r.id = id
      · rw [if_pos hr, List.find?_cons_of_pos _ (by simpa using hm)]
      · rw [if_neg hr, List.find?_cons_of_neg _ (by simpa using hr)]
        rw [List.find?_cons_of_neg _ (by simpa using hr)] at hex
        exact ih hex

/-- C7, counterexample: deleting an expense that belongs to a group and then
undoing re-inserts it through createExpense, which nulls the group column, so
the restored row does not carry identical field values. -/
theorem c7_counterexample :
    (deleteThenUndo
        ⟨"id1", 5, "USD", "food", none, none, 0, some "g", some "m", "t0", "t0"⟩
        "id2" "t2"
        [⟨"id1", 5, "USD", "food", none, none, 0, some "g", some "m", "t0", "t0"⟩]).map
      (·.groupId) = [none] ∧
    (some "g" : Option String) ≠ none := by
  exact ⟨rfl, by simp⟩

/-- C7, amended: the undo round-trips hold for personal expenses (null
groupId and paidByMemberId) up to the regenerated bookkeeping fields:
add-then-undo restores the table exactly (given a fresh id); edit-then-undo
restores every field of the prior row except updatedAt; delete-then-undo
re-inserts a row agreeing with the deleted one on every user-visible field
but with a new id and fresh timestamps.  For group expenses the round-trip
fails: the restore path nulls groupId and paidByMemberId. -/
theorem c7_amended (x : StoredExpense) (tbl : ExpenseTable)
    (hg : x.groupId = none) (hp : x.paidByMemberId = none) :
    (∀ inp freshId now, freshId ∉ tbl.map (·.id) →
      addThenUndo inp freshId now tbl = tbl) ∧
    (∀ u now1 now2, getExpenseRow tbl x.id = some x →
      editThenUndo x u now1 now2 tbl =
        some (tbl.map (fun r =>
          if r.id = x.id then { x with updatedAt := now2 } else r))) ∧
    (∀ freshId now2, deleteThenUndo x freshId now2 tbl =
      deleteExpense x.id tbl ++
        [{ x with id := freshId, createdAt := now2, updatedAt := now2 }]) := by
  refine ⟨?_, ?_, ?_⟩
  · intro inp freshId now hfresh
    show deleteExpense freshId (tbl ++ [_]) = tbl
    unfold deleteExpense
    rw [List.filter_append]
    have h1 : tbl.filter (fun r => r.id ≠ freshId) = tbl := by
      apply List.filter_eq_self.mpr
      intro r hr
      have : r.id ≠ freshId := fun hc => hfresh (List.mem_map.mpr ⟨r, hr, hc⟩)
      simpa using this
    rw [h1]
    simp
  · intro u now1 now2 hfind
    have h1 : updateExpense x.id u now1 tbl =
        some (tbl.map (fun r => if r.id = x.id then mergedRow x u now1 else r)) := by
      simp only [updateExpense, hfind]
    have hfind2 : getExpenseRow
        (tbl.map (fun r => if r.id = x.id then mergedRow x u now1 else r)) x.id =
        some (mergedRow x u now1) :=
      getExpenseRow_map_overwrite tbl x.id _ rfl x hfind
    have h2 : updateExpense x.id (toUpdates x) now2
        (tbl.map (fun r => if r.id = x.id then mergedRow x u now1 else r)) =
        some ((tbl.map (fun r => if r.id = x.id then mergedRow x u now1 else r)).map
          (fun r => if r.id = x.id then
            mergedRow (mergedRow x u now1) (toUpdates x) now2 else r)) := by
      simp only [updateExpense, hfind2]
    unfold editThenUndo
    rw [h1, Option.some_bind, h2, List.map_map]
    have hfun : ((fun r => if r.id = x.id then
          mergedRow (mergedRow x u now1) (toUpdates x) now2 else r) ∘
        (fun r => if r.id = x.id then mergedRow x u now1 else r)) =
        (fun r => if r.id = x.id then { x with updatedAt := now2 } else r) := by
      funext r
      simp only [Function.comp]
      by_cases hr : r.id = x.id
      · simp only [if_pos hr]
        rw [if_pos (show (mergedRow x u now1).id = x.id from rfl)]
        cases x
        simp only [mergedRow, toUpdates, Option.getD_some] at hg hp ⊢
        subst hg
        subst hp
        rfl
      · simp only [if_neg hr]
    rw [hfun]
  · intro freshId now2
    unfold deleteThenUndo createExpense
    simp only []
    congr 1
    cases x
    simp only [toInput] at hg hp ⊢
    subst hg
    subst hp
    rfl

/-- C7 witness: the three round-trips at a concrete personal expense. -/
theorem c7_witness :
    addThenUndo ⟨7, "EUR", "misc", none, none, 3, none⟩ "f1" "t9"
        [⟨"e1", 7, "EUR", "misc", none, none, 3, none, none, "t0", "t1"⟩] =
      [⟨"e1", 7, "EUR", "misc", none, none, 3, none, none, "t0", "t1"⟩] ∧
    editThenUndo ⟨"e1", 7, "EUR", "misc", none, none, 3, none, none, "t0", "t1"⟩
        ⟨some 9, none, none, none, none, none⟩ "t2" "t3"
        [⟨"e1", 7, "EUR", "misc", none, none, 3, none, none, "t0", "t1"⟩] =
      some [⟨"e1", 7, "EUR", "misc", none, none, 3, none, none, "t0", "t3"⟩] ∧
    deleteThenUndo ⟨"e1", 7, "EUR", "misc", none, none, 3, none, none, "t0", "t1"⟩
        "f2" "t4"
        [⟨"e1", 7, "EUR", "misc", none, none, 3, none, none, "t0", "t1"⟩] =
      [⟨"f2", 7, "EUR", "misc", none, none, 3, none, none, "t4", "t4"⟩] := by
  have h := c7_amended ⟨"e1", 7, "EUR", "misc", none, none, 3, none, none, "t0", "t1"⟩
      [⟨"e1", 7, "EUR", "misc", none, none, 3, none, none, "t0", "t1"⟩] rfl rfl
  refine ⟨?_, ?_, ?_⟩
  · simpa using h.1 ⟨7, "EUR", "misc", none, none, 3, none⟩ "f1" "t9" (by simp)
  · simpa using h.2.1 ⟨some 9, none, none, none, none, none⟩ "t2" "t3" rfl
  · simpa using h.2.2 "f2" "t4"

/-! ## Claim C8 -/

/-- C8, counterexample: with the key locked (cleared by lockEncryptionKey)
and the keychain reachable, encrypt and decrypt both re-initialize the key on
their own and succeed; they do not fail. -/
theorem c8_counterexample :
    encrypt ⟨some "k0", "kf", true⟩ (lockEncryptionKey (some "k0")) "note" =
      .ok (⟨"k0", "note"⟩, some "k0") ∧
    decrypt ⟨some "k0", "kf", true⟩ (lockEncryptionKey (some "k0")) ⟨"k0", "note"⟩ =
      .ok ("note", some "k0") := by
  exact ⟨rfl, rfl⟩

/-- C8, amended: a call made while the key is cleared first re-initializes
the key from the keychain and proceeds with it; the call fails (with the
keychain error, without blocking) only when keychain access itself fails. -/
theorem c8_amended (env : KeychainEnv) (pt : String) (c : SecretBox) :
    (env.ok = true →
      encrypt env none pt =
        .ok (⟨env.stored.getD env.fresh, pt⟩, some (env.stored.getD env.fresh))) ∧
    (env.ok = false →
      encrypt env none pt = .error .keychainFailure ∧
      decrypt env none c = .error .keychainFailure) := by
  constructor
  · intro hok
    cases hst : env.stored <;>
      simp [encrypt, ensureKey, initEncryptionKey, hok, hst]
  · intro hok
    constructor <;> simp [encrypt, decrypt, ensureKey, initEncryptionKey, hok]

/-- C8 witness: the amended behavior at a reachable and at a failing
keychain. -/
theorem c8_witness :
    encrypt ⟨some "kk", "kf", true⟩ none "m" = .ok (⟨"kk", "m"⟩, some "kk") ∧
    encrypt ⟨none, "kf", false⟩ none "m" = .error .keychainFailure := by
  refine ⟨?_, ?_⟩
  · simpa using (c8_amended ⟨some "kk", "kf", true⟩ "m" ⟨"kk", "m"⟩).1 rfl
  · exact ((c8_amended ⟨none, "kf", false⟩ "m" ⟨"kk", "m"⟩).2 rfl).1

/-! ## Claim C10 -/

/-- C10: every row written through the personal expense service stores null
for groupId and paidByMemberId whatever the caller supplied; in particular
the rows the recurrence planner materializes from a group-carrying rule and
the rows the undo service re-inserts for a deleted snapshot lose the group
association and payer reference. -/
theorem c10_personal_rows_null (inp : ExpenseInput) (freshId now : String)
    (tbl : ExpenseTable) :
    ((createExpense inp freshId now tbl).1.groupId = none ∧
      (createExpense inp freshId now tbl).1.paidByMemberId = none) ∧
    (∀ id u now2 tbl2 tbl2b, updateExpense id u now2 tbl2 = some tbl2b →
      ∀ r ∈ tbl2b, r.id = id → r.groupId = none ∧ r.paidByMemberId = none) ∧
    (∀ g : GenExpense,
      (createExpense (inputOfGen g) freshId now tbl).1.groupId = none ∧
      (createExpense (inputOfGen g) freshId now tbl).1.paidByMemberId = none) ∧
    (∀ x : StoredExpense,
      (createExpense (toInput x) freshId now tbl).1.groupId = none ∧
      (createExpense (toInput x) freshId now tbl).1.paidByMemberId = none) := by
  refine ⟨⟨rfl, rfl⟩, ?_, fun g => ⟨rfl, rfl⟩, fun x => ⟨rfl, rfl⟩⟩
  intro id u now2 tbl2 tbl2b hupd r hr hid
  unfold updateExpense at hupd
  cases hfind : getExpenseRow tbl2 id with
  | none =>
      rw [hfind] at hupd
      simp at hupd
  | some ex =>
      rw [hfind] at hupd
      simp only [Option.some.injEq] at hupd
      subst hupd
      rcases List.mem_map.mp hr with ⟨r0, hr0, rfl⟩
      by_cases h0 : r0.id = id
      · simp [h0, mergedRow]
      · rw [if_neg h0] at hid
        exact absurd hid h0

/-- C10 witness: a concrete update against a row that carried a group and a
payer persists null for both columns. -/
theorem c10_witness :
    updateExpense "e1" ⟨some 2, none, none, none, none, none⟩ "t5"
        [⟨"e1", 1, "USD", "misc", none, none, 0, some "g", some "m", "t0", "t1"⟩] =
      some [⟨"e1", 2, "USD", "misc", none, none, 0, none, none, "t0", "t5"⟩] ∧
    ((⟨"e1", 2, "USD", "misc", none, none, 0, none, none, "t0", "t5"⟩ :
        StoredExpense).groupId = none ∧
      (⟨"e1", 2, "USD", "misc", none, none, 0, none, none, "t0", "t5"⟩ :
        StoredExpense).paidByMemberId = none) := by
  have hupd : updateExpense "e1" ⟨some 2, none, none, none, none, none⟩ "t5"
      [⟨"e1", 1, "USD", "misc", none, none, 0, some "g", some "m", "t0", "t1"⟩] =
      some [⟨"e1", 2, "USD", "misc", none, none, 0, none, none, "t0", "t5"⟩] := rfl
  exact ⟨hupd,
    (c10_personal_rows_null ⟨1, "USD", "misc", none, none, 0, none⟩ "i" "t" []).2.1
      "e1" ⟨some 2, none, none, none, none, none⟩ "t5" _ _ hupd _ (by simp) rfl⟩

/-! ## Helper lemmas on the recurrence planner -/

/-- Past the horizon the loop yields nothing, at any fuel. -/
theorem genLoop_stop (p : RecurringRule) (t cur : Int) (h : ¬ cur ≤ t) :
    ∀ fuel : Nat, genLoop p t fuel cur = ([], none) := by
  intro fuel
  cases fuel with
  | zero => rfl
  | succ n => simp [genLoop, h]

/-- The loop reads only the rule's interval data and end date, so changing
lastGenerated does not affect it. -/
theorem genLoop_lastGen_irrel (p : RecurringRule) (lg : Option Int) (now : Int) :
    ∀ (fuel : Nat) (cur : Int),
      genLoop { p with lastGenerated := lg } now fuel cur =
        genLoop p now fuel cur := by
  intro fuel
  induction fuel with
  | zero => intro cur; rfl
  | succ fuel ih =>
      intro cur
      simp only [genLoop, ih, mkGenExpense]

/-- Any daily, weekly or custom rule with a positive interval value strictly
advances the date. -/
theorem stepPos_of_add (p : RecurringRule) (h2 : 1 ≤ p.intervalValue)
    (h1 : p.interval = RecInterval.daily ∨ p.interval = RecInterval.weekly ∨
      p.interval = RecInterval.custom) : StepPos p := by
  intro d
  rcases h1 with h1 | h1 | h1 <;> rw [h1] <;> simp [getNextDate] <;> omega

/-- With a strictly increasing interval, once the fuel covers the day span to
the horizon the loop's answer no longer depends on the fuel. -/
theorem genLoop_fuel_irrel (p : RecurringRule) (now : Int) (hs : StepPos p) :
    ∀ (fuel : Nat) (cur : Int), (now + 1 - cur).toNat ≤ fuel →
    ∀ fuel2 : Nat, fuel ≤ fuel2 →
      genLoop p now fuel2 cur = genLoop p now fuel cur := by
  intro fuel
  induction fuel with
  | zero =>
      intro cur hb fuel2 _
      have hcur : ¬ cur ≤ now := by omega
      rw [genLoop_stop p now cur hcur fuel2, genLoop_stop p now cur hcur 0]
  | succ fuel ih =>
      intro cur hb fuel2 h2
      rcases Nat.exists_eq_add_of_le h2 with ⟨k, rfl⟩
      by_cases hcur : cur ≤ now
      · rw [show fuel + 1 + k = (fuel + k) + 1 from by omega]
        by_cases hbreak : endBreak p.endDate cur = true
        · simp [genLoop, hcur, hbreak]
        · have hb1 : endBreak p.endDate cur = false := by simpa using hbreak
          have hnext := hs cur
          have hb2 :
              (now + 1 - getNextDate cur p.interval p.intervalValue).toNat ≤ fuel := by
            omega
          simp only [genLoop, if_pos hcur, hb1, Bool.false_eq_true, if_false]
          rw [ih _ hb2 (fuel + k) (by omega)]
      · rw [genLoop_stop p now cur hcur, genLoop_stop p now cur hcur]

/-- After a sufficiently fueled run, restarting the loop one interval past
the recorded last occurrence (or at the unchanged cursor) yields nothing:
this is why an immediate re-run generates no duplicates. -/
theorem genLoop_restart (p : RecurringRule) (now : Int) (hs : StepPos p) :
    ∀ (fuel : Nat) (cur : Int), (now + 1 - cur).toNat ≤ fuel →
    ∀ fuel2 : Nat,
      genLoop p now fuel2 (restartCursor p cur (genLoop p now fuel cur).2) =
        ([], none) := by
  intro fuel
  induction fuel with
  | zero =>
      intro cur hb fuel2
      have hcur : ¬ cur ≤ now := by omega
      have h0 : genLoop p now 0 cur = ([], none) := rfl
      rw [h0]
      simpa [restartCursor] using genLoop_stop p now cur hcur fuel2
  | succ fuel ih =>
      intro cur hb fuel2
      by_cases hcur : cur ≤ now
      · by_cases hbreak : endBreak p.endDate cur = true
        · have hrw : (genLoop p now (fuel + 1) cur).2 = none := by
            simp [genLoop, hcur, hbreak]
          rw [hrw]
          cases fuel2 with
          | zero => rfl
          | succ m => simp [genLoop, restartCursor, hcur, hbreak]
        · have hb1 : endBreak p.endDate cur = false := by simpa using hbreak
          have hnext := hs cur
          have hb2 :
              (now + 1 - getNextDate cur p.interval p.intervalValue).toNat ≤ fuel := by
            omega
          have hrec := ih (getNextDate cur p.interval p.intervalValue) hb2 fuel2
          have hrw : (genLoop p now (fuel + 1) cur).2 =
              some ((genLoop p now fuel
                (getNextDate cur p.interval p.intervalValue)).2.getD cur) := by
            simp [genLoop, hcur, hb1]
          rw [hrw]
          cases hr2 : (genLoop p now fuel
              (getNextDate cur p.interval p.intervalValue)).2 with
          | none =>
              rw [hr2] at hrec
              simpa [restartCursor] using hrec
          | some l =>
              rw [hr2] at hrec
              simpa [restartCursor] using hrec
      · have hrw : (genLoop p now (fuel + 1) cur).2 = none :=
          congrArg Prod.snd (genLoop_stop p now cur hcur (fuel + 1))
        rw [hrw]
        simpa [restartCursor] using genLoop_stop p now cur hcur fuel2

/-- Splitting one generation horizon t2 into a run up to t1 followed by a
resumed run up to t2 yields exactly the expenses of the single run, and the
same final lastGenerated, provided the rule's end date (if any) is not before
t2. -/
theorem genLoop_merge (p : RecurringRule) (t1 t2 : Int) (hs : StepPos p)
    (hEnd : ∀ e, p.endDate = some e → t2 ≤ e) (h12 : t1 ≤ t2) :
    ∀ (fuel : Nat) (cur : Int), (t2 + 1 - cur).toNat ≤ fuel →
    ∀ fuelB : Nat, (t2 + 1 - cur).toNat ≤ fuelB →
    (genLoop p t1 fuel cur).1 ++
        (genLoop p t2 fuelB (restartCursor p cur (genLoop p t1 fuel cur).2)).1 =
      (genLoop p t2 fuel cur).1 ∧
    mergeLastGen (genLoop p t1 fuel cur).2
        (genLoop p t2 fuelB (restartCursor p cur (genLoop p t1 fuel cur).2)).2 =
      (genLoop p t2 fuel cur).2 := by
  intro fuel
  induction fuel with
  | zero =>
      intro cur hb fuelB _
      have hcur2 : ¬ cur ≤ t2 := by omega
      have h0 : genLoop p t1 0 cur = ([], none) := rfl
      have h0b : genLoop p t2 0 cur = ([], none) := rfl
      rw [h0, h0b]
      simp [restartCursor, genLoop_stop p t2 cur hcur2 fuelB, mergeLastGen]
  | succ fuel ih =>
      intro cur hb fuelB hbB
      by_cases hcur1 : cur ≤ t1
      · have hcur2 : cur ≤ t2 := le_trans hcur1 h12
        have hbreak : endBreak p.endDate cur = false := by
          cases hd : p.endDate with
          | none => simp [endBreak]
          | some e =>
              have he := hEnd e hd
              simp only [endBreak, decide_eq_false_iff_not]
              omega
        have e1 : genLoop p t1 (fuel + 1) cur =
            (mkGenExpense p cur ::
                (genLoop p t1 fuel (getNextDate cur p.interval p.intervalValue)).1,
              some ((genLoop p t1 fuel
                (getNextDate cur p.interval p.intervalValue)).2.getD cur)) := by
          simp [genLoop, hcur1, hbreak]
        have e2 : genLoop p t2 (fuel + 1) cur =
            (mkGenExpense p cur ::
                (genLoop p t2 fuel (getNextDate cur p.interval p.intervalValue)).1,
              some ((genLoop p t2 fuel
                (getNextDate cur p.interval p.intervalValue)).2.getD cur)) := by
          simp [genLoop, hcur2, hbreak]
        have hnext := hs cur
        have hb2 :
            (t2 + 1 - getNextDate cur p.interval p.intervalValue).toNat ≤ fuel := by
          omega
        have hbB2 :
            (t2 + 1 - getNextDate cur p.interval p.intervalValue).toNat ≤ fuelB := by
          omega
        have hrestart : restartCursor p cur
            (genLoop p t1 (fuel + 1) cur).2 =
            restartCursor p (getNextDate cur p.interval p.intervalValue)
              (genLoop p t1 fuel (getNextDate cur p.interval p.intervalValue)).2 := by
          rw [e1]
          cases hr : (genLoop p t1 fuel
              (getNextDate cur p.interval p.intervalValue)).2 <;>
            simp [restartCursor, hr]
        rcases ih (getNextDate cur p.interval p.intervalValue) hb2 fuelB hbB2 with
          ⟨ih1, ih2⟩
        rw [hrestart, e1, e2]
        dsimp only
        constructor
        · rw [List.cons_append, ih1]
        · cases hC : (genLoop p t2 fuelB
              (restartCursor p (getNextDate cur p.interval p.intervalValue)
                (genLoop p t1 fuel
                  (getNextDate cur p.interval p.intervalValue)).2)).2 with
          | some l =>
              rw [hC] at ih2
              simp only [mergeLastGen] at ih2 ⊢
              rw [← ih2]
              simp
          | none =>
              rw [hC] at ih2
              simp only [mergeLastGen] at ih2 ⊢
              rw [ih2]
      · by_cases hcur2 : cur ≤ t2
        · have e1 : genLoop p t1 (fuel + 1) cur = ([], none) :=
            genLoop_stop p t1 cur hcur1 _
          rw [e1]
          dsimp only
          rw [show restartCursor p cur none = cur from rfl]
          have hirr : genLoop p t2 fuelB cur = genLoop p t2 (fuel + 1) cur := by
            have ha := genLoop_fuel_irrel p t2 hs ((t2 + 1 - cur).toNat) cur
              (le_refl _) fuelB hbB
            have hb2 := genLoop_fuel_irrel p t2 hs ((t2 + 1 - cur).toNat) cur
              (le_refl _) (fuel + 1) hb
            rw [ha, hb2]
          rw [hirr]
          refine ⟨by simp, ?_⟩
          cases h2 : (genLoop p t2 (fuel + 1) cur).2 <;> simp [mergeLastGen, h2]
        · have e1 : genLoop p t1 (fuel + 1) cur = ([], none) :=
            genLoop_stop p t1 cur hcur1 _
          have e2 : genLoop p t2 (fuel + 1) cur = ([], none) :=
            genLoop_stop p t2 cur hcur2 _
          rw [e1, e2]
          dsimp only
          rw [show restartCursor p cur none = cur from rfl,
            genLoop_stop p t2 cur hcur2 fuelB]
          exact ⟨rfl, rfl⟩

/-! ## Claim C5 -/

/-- C5, counterexample: a daily rule ending on day 2, run first on day 2 and
again on day 15, has materialized the occurrences of days 1 and 2; a single
run on day 15 materializes nothing, because a rule whose end date is before
now is skipped entirely.  The multiset of materialized expenses therefore
depends on which intermediate invocation times occurred. -/
theorem c5_counterexample :
    (generateForRule 20 endedDailyRule 2).1.map (fun g => g.date) = [1, 2] ∧
    (generateForRule 20 (generateForRule 20 endedDailyRule 2).2 15).1.map
      (fun g => g.date) = [] ∧
    (generateForRule 20 endedDailyRule 15).1.map (fun g => g.date) = [] ∧
    ([1, 2] ++ ([] : List Int)) ≠ [] := by
  refine ⟨by decide, by decide, by decide, by decide⟩

/-- C5, amended: because lastGenerated is persisted after each materialized
occurrence, an immediate second run (no time elapsed) materializes nothing
and leaves the rule state unchanged, for any rule whose interval strictly
advances dates; and the run-twice/run-once equivalence (the multiset of
materialized expenses depending only on the rule and the final time) holds
provided the rule's end date, if any, is not before the final invocation
time.  A rule whose end date has passed is skipped outright, so for such
rules the outcome does depend on intermediate invocation times. -/
theorem c5_amended (p : RecurringRule) (t1 t2 : Int) (fuel : Nat)
    (hs : StepPos p) (h12 : t1 ≤ t2)
    (hfuel : (t2 + 1 - ruleBase p).toNat ≤ fuel) :
    (∀ fuel2 : Nat,
      generateForRule fuel2 (generateForRule fuel p t2).2 t2 =
        ([], (generateForRule fuel p t2).2)) ∧
    ((∀ e, p.endDate = some e → t2 ≤ e) →
      (generateForRule fuel p t1).1 ++
          (generateForRule fuel (generateForRule fuel p t1).2 t2).1 =
        (generateForRule fuel p t2).1 ∧
      (generateForRule fuel (generateForRule fuel p t1).2 t2).2 =
        (generateForRule fuel p t2).2) := by
  have hcur0 := hs (ruleBase p)
  have hb0 :
      (t2 + 1 - getNextDate (ruleBase p) p.interval p.intervalValue).toNat ≤ fuel := by
    omega
  constructor
  · intro fuel2
    by_cases hskip : ruleSkipped p t2 = true
    · simp [generateForRule, hskip]
    · have hskip2 : ruleSkipped p t2 = false := by simpa using hskip
      have hres : generateForRule fuel p t2 =
          ((genLoop p t2 fuel
              (getNextDate (ruleBase p) p.interval p.intervalValue)).1,
            { p with lastGenerated :=
                match (genLoop p t2 fuel
                    (getNextDate (ruleBase p) p.interval p.intervalValue)).2 with
                | some l => some l
                | none => p.lastGenerated }) := by
        simp [generateForRule, hskip2]
      have hL1 := genLoop_restart p t2 hs fuel
        (getNextDate (ruleBase p) p.interval p.intervalValue) hb0 fuel2
      rw [hres]
      cases hr2 : (genLoop p t2 fuel
          (getNextDate (ruleBase p) p.interval p.intervalValue)).2 with
      | some l =>
          rw [hr2] at hL1
          simp only [restartCursor] at hL1
          simp [generateForRule, hskip2, ruleBase, genLoop_lastGen_irrel, hL1,
            ruleSkipped]
      | none =>
          rw [hr2] at hL1
          simp only [restartCursor, ruleBase] at hL1
          have heta : { p with lastGenerated := p.lastGenerated } = p := rfl
          simp [generateForRule, hskip2, hL1, ruleBase, heta]
  · intro hEnd
    have hskip1 : ruleSkipped p t1 = false := by
      cases hd : p.endDate with
      | none => simp [ruleSkipped, hd]
      | some e =>
          have he := hEnd e hd
          simp only [ruleSkipped, hd, decide_eq_false_iff_not]
          omega
    have hskip2 : ruleSkipped p t2 = false := by
      cases hd : p.endDate with
      | none => simp [ruleSkipped, hd]
      | some e =>
          have he := hEnd e hd
          simp only [ruleSkipped, hd, decide_eq_false_iff_not]
          omega
    rcases genLoop_merge p t1 t2 hs hEnd h12 fuel
        (getNextDate (ruleBase p) p.interval p.intervalValue) hb0 fuel hb0 with
      ⟨hm1, hm2⟩
    have hres1 : generateForRule fuel p t1 =
        ((genLoop p t1 fuel
            (getNextDate (ruleBase p) p.interval p.intervalValue)).1,
          { p with lastGenerated :=
              match (genLoop p t1 fuel
                  (getNextDate (ruleBase p) p.interval p.intervalValue)).2 with
              | some l => some l
              | none => p.lastGenerated }) := by
      simp [generateForRule, hskip1]
    rw [hres1]
    cases hr1 : (genLoop p t1 fuel
        (getNextDate (ruleBase p) p.interval p.intervalValue)).2 with
    | some l =>
        rw [hr1] at hm1 hm2
        simp only [restartCursor] at hm1 hm2
        have hskipP1 : ruleSkipped { p with lastGenerated := some l } t2 = false :=
          hskip2
        have hsecond : generateForRule fuel { p with lastGenerated := some l } t2 =
            ((genLoop p t2 fuel (getNextDate l p.interval p.intervalValue)).1,
              { p with lastGenerated :=
                  match (genLoop p t2 fuel
                      (getNextDate l p.interval p.intervalValue)).2 with
                  | some l2 => some l2
                  | none => some l }) := by
          simp [generateForRule, hskipP1, ruleBase, genLoop_lastGen_irrel]
        have hres2 : generateForRule fuel p t2 =
            ((genLoop p t2 fuel
                (getNextDate (ruleBase p) p.interval p.intervalValue)).1,
              { p with lastGenerated :=
                  match (genLoop p t2 fuel
                      (getNextDate (ruleBase p) p.interval p.intervalValue)).2 with
                  | some l2 => some l2
                  | none => p.lastGenerated }) := by
          simp [generateForRule, hskip2]
        rw [hsecond, hres2]
        dsimp only
        constructor
        · exact hm1
        · have hfield : (match (genLoop p t2 fuel
                (getNextDate l p.interval p.intervalValue)).2 with
              | some l2 => some l2
              | none => some l) =
              (match (genLoop p t2 fuel
                  (getNextDate (ruleBase p) p.interval p.intervalValue)).2 with
              | some l2 => some l2
              | none => p.lastGenerated) := by
            cases hC : (genLoop p t2 fuel
                (getNextDate l p.interval p.intervalValue)).2 with
            | some l2 =>
                rw [hC] at hm2
                simp only [mergeLastGen] at hm2
                rw [← hm2]
            | none =>
                rw [hC] at hm2
                simp only [mergeLastGen] at hm2
                rw [← hm2]
          rw [hfield]
    | none =>
        rw [hr1] at hm1 hm2
        simp only [restartCursor] at hm1 hm2
        have heta : { p with lastGenerated := p.lastGenerated } = p := rfl
        dsimp only
        rw [heta]
        have hres2 : generateForRule fuel p t2 =
            ((genLoop p t2 fuel
                (getNextDate (ruleBase p) p.interval p.intervalValue)).1,
              { p with lastGenerated :=
                  match (genLoop p t2 fuel
                      (getNextDate (ruleBase p) p.interval p.intervalValue)).2 with
                  | some l2 => some l2
                  | none => p.lastGenerated }) := by
          simp [generateForRule, hskip2]
        rw [hres2]
        dsimp only
        exact ⟨hm1, rfl⟩

/-- C5 witness: a daily rule run on day 3 and resumed on day 6 matches the
single run on day 6, and the immediate re-run on day 6 adds nothing. -/
theorem c5_witness :
    generateForRule 10 (generateForRule 10 dailyRule 6).2 6 =
      ([], (generateForRule 10 dailyRule 6).2) ∧
    (generateForRule 10 dailyRule 3).1 ++
        (generateForRule 10 (generateForRule 10 dailyRule 3).2 6).1 =
      (generateForRule 10 dailyRule 6).1 := by
  have hs : StepPos dailyRule :=
    stepPos_of_add dailyRule (by decide) (Or.inl rfl)
  have h := c5_amended dailyRule 3 6 10 hs (by decide) (by decide)
  refine ⟨h.1 10, (h.2 ?_).1⟩
  intro e he
  simp [dailyRule] at he

/-! ## Claim C6 -/

/-- With a strictly advancing interval the occurrence chain is strictly
monotone. -/
theorem nthOcc_strictMono (p : RecurringRule) (hs : StepPos p) :
    StrictMono (nthOcc p) :=
  strictMono_nat_of_lt_succ (fun n => hs (nthOcc p n))

/-- Characterization of the loop output: starting at chain position k + 1
with enough fuel, a date is materialized exactly when it is a chain
occurrence at or past that position, not after now (day granularity), and
not past the end date. -/
theorem genLoop_mem_iff (p : RecurringRule) (now : Int) (hs : StepPos p) :
    ∀ (fuel k : Nat), (now + 1 - nthOcc p (k + 1)).toNat ≤ fuel →
    ∀ d : Int,
      d ∈ (genLoop p now fuel (nthOcc p (k + 1))).1.map (fun g => g.date) ↔
        ((∃ i : Nat, k + 1 ≤ i ∧ nthOcc p i = d) ∧ d ≤ now ∧
          ∀ e, p.endDate = some e → d ≤ e) := by
  intro fuel
  induction fuel with
  | zero =>
      intro k hb d
      have hgt : ¬ nthOcc p (k + 1) ≤ now := by omega
      simp only [genLoop, List.map_nil, List.not_mem_nil, false_iff]
      rintro ⟨⟨i, hik, rfl⟩, hdnow, _⟩
      have hmono : nthOcc p (k + 1) ≤ nthOcc p i :=
        (nthOcc_strictMono p hs).le_iff_le.mpr hik
      omega
  | succ fuel ih =>
      intro k hb d
      by_cases hcur : nthOcc p (k + 1) ≤ now
      · by_cases hbreak : endBreak p.endDate (nthOcc p (k + 1)) = true
        · have he : ∃ e, p.endDate = some e ∧ e < nthOcc p (k + 1) := by
            cases hd : p.endDate with
            | none => rw [hd] at hbreak; simp [endBreak] at hbreak
            | some e =>
                rw [hd] at hbreak
                exact ⟨e, rfl, by simpa [endBreak] using hbreak⟩
          rcases he with ⟨e, hde, hlt⟩
          simp only [genLoop, if_pos hcur, if_pos hbreak, List.map_nil,
            List.not_mem_nil, false_iff]
          rintro ⟨⟨i, hik, rfl⟩, _, hend⟩
          have hmono : nthOcc p (k + 1) ≤ nthOcc p i :=
            (nthOcc_strictMono p hs).le_iff_le.mpr hik
          have h2 := hend e hde
          omega
        · have hcurend : ∀ e, p.endDate = some e → nthOcc p (k + 1) ≤ e := by
            intro e hde
            rw [hde] at hbreak
            simp only [endBreak, decide_eq_true_eq] at hbreak
            omega
          have hnext := hs (nthOcc p (k + 1))
          have hb2 : (now + 1 - nthOcc p (k + 2)).toNat ≤ fuel := by
            have hstep : nthOcc p (k + 1) < nthOcc p (k + 2) :=
              hs (nthOcc p (k + 1))
            omega
          have hcons : genLoop p now (fuel + 1) (nthOcc p (k + 1)) =
              (mkGenExpense p (nthOcc p (k + 1)) ::
                  (genLoop p now fuel (nthOcc p (k + 2))).1,
                some ((genLoop p now fuel (nthOcc p (k + 2))).2.getD
                  (nthOcc p (k + 1)))) := by
            have hb1 : endBreak p.endDate (nthOcc p (k + 1)) = false := by
              simpa using hbreak
            simp only [genLoop, if_pos hcur, hb1, Bool.false_eq_true, if_false]
            rfl
          rw [hcons]
          simp only [List.map_cons, List.mem_cons, mkGenExpense]
          rw [ih (k + 1) hb2 d]
          constructor
          · rintro (rfl | ⟨⟨i, hik, rfl⟩, h2, h3⟩)
            · exact ⟨⟨k + 1, le_refl _, rfl⟩, hcur, hcurend⟩
            · exact ⟨⟨i, by omega, rfl⟩, h2, h3⟩
          · rintro ⟨⟨i, hik, rfl⟩, h2, h3⟩
            rcases Nat.lt_or_ge (k + 1) i with hi | hi
            · exact Or.inr ⟨⟨i, by omega, rfl⟩, h2, h3⟩
            · have hieq : i = k + 1 := le_antisymm hi hik
              subst hieq
              exact Or.inl rfl
      · simp only [genLoop, if_neg hcur, List.map_nil, List.not_mem_nil,
          false_iff]
        rintro ⟨⟨i, hik, rfl⟩, hdnow, _⟩
        have hmono : nthOcc p (k + 1) ≤ nthOcc p i :=
          (nthOcc_strictMono p hs).le_iff_le.mpr hik
        omega

/-- C6, counterexample: a daily rule whose end date (day 2) lies before now
(day 5) is skipped entirely, so the occurrence of day 1 — which is on or
before now and on or before the end date, exactly the claimed while
condition — is never materialized. -/
theorem c6_counterexample :
    (generateForRule 10 endedDailyRule 5).1.map (fun g => g.date) = [] ∧
    nthOcc endedDailyRule 1 = 1 ∧ ((1 : Int) ≤ 5) ∧ ((1 : Int) ≤ 2) := by
  refine ⟨by decide, by decide, by decide, by decide⟩

/-- C6, amended: for a rule that is not skipped (no end date, or end date on
or after now) and whose interval strictly advances dates, the planner
materializes a date exactly when it is an occurrence of the rule's chain
(one or more intervals past the cursor), on or before now at day
granularity, and not past the end date; in particular the spec's example — a
monthly rule from 2024-01-01 with lastGenerated 2024-01-01, run at
2024-04-15 — materializes exactly Feb 1, Mar 1 and Apr 1 and persists
lastGenerated 2024-04-01.  A rule whose end date is strictly before now is
instead skipped entirely, missed occurrences included. -/
theorem c6_amended :
    (∀ (p : RecurringRule) (now : Int) (fuel : Nat), StepPos p →
      (∀ e, p.endDate = some e → now ≤ e) →
      (now + 1 - ruleBase p).toNat ≤ fuel →
      ∀ d : Int,
        (d ∈ (generateForRule fuel p now).1.map (fun g => g.date) ↔
          ((∃ i : Nat, 1 ≤ i ∧ nthOcc p i = d) ∧ d ≤ now ∧
            ∀ e, p.endDate = some e → d ≤ e))) ∧
    (generateForRule 10 monthlyRuleExample (mkDate 2024 4 15)).1.map
      (fun g => g.date) = [mkDate 2024 2 1, mkDate 2024 3 1, mkDate 2024 4 1] ∧
    (generateForRule 10 monthlyRuleExample (mkDate 2024 4 15)).2.lastGenerated =
      some (mkDate 2024 4 1) := by
  refine ⟨?_, by decide, by decide⟩
  intro p now fuel hs hA hfuel d
  have hskip : ruleSkipped p now = false := by
    cases hd : p.endDate with
    | none => simp [ruleSkipped, hd]
    | some e =>
        have he := hA e hd
        simp only [ruleSkipped, hd, decide_eq_false_iff_not]
        omega
  have hres : (generateForRule fuel p now).1 =
      (genLoop p now fuel
        (getNextDate (ruleBase p) p.interval p.intervalValue)).1 := by
    simp [generateForRule, hskip]
  rw [hres]
  have hb1 : (now + 1 - nthOcc p 1).toNat ≤ fuel := by
    have hstep := hs (ruleBase p)
    have h1 : nthOcc p 1 = getNextDate (ruleBase p) p.interval p.intervalValue :=
      rfl
    omega
  exact genLoop_mem_iff p now hs fuel 0 hb1 d

/-- C6 witness: for a plain daily rule run at day 4, day 2 is materialized —
it is the second chain occurrence, at most now, with no end date. -/
theorem c6_witness :
    (2 : Int) ∈ (generateForRule 10 dailyRule 4).1.map (fun g => g.date) := by
  have hs : StepPos dailyRule :=
    stepPos_of_add dailyRule (by decide) (Or.inl rfl)
  refine (c6_amended.1 dailyRule 4 10 hs ?_ (by decide) 2).mpr
    ⟨⟨2, by decide, by decide⟩, by decide, ?_⟩
  · intro e he
    simp [dailyRule] at he
  · intro e he
    simp [dailyRule] at he

end SpendWise
